import Mathlib

/-! Browser agent: the execution loop and its action grammar.

A shallow embedding of `internal/agent/planner.go`: the tolerant action parser
`parseAction` (with the regular expression `actionRe`) and the loop `Core.Run`.

Go strings are modelled as lists of Unicode code points (`Str`); the texts the loop
handles come out of a JSON decoder and are valid UTF-8.  Library functions of the Go
`strings`, `regexp`, `unicode`, `fmt` and `time` packages are modelled by the
definitions of the first sections, named after the Go functions they stand for.
-/

namespace Agent

/-- A Go `string`, as its sequence of runes. -/
abbrev Str := List Char

/-! ## The Go library functions used by the planner -/

/-- Go `unicode.IsSpace`: the eight Latin-1 spaces and, above Latin-1, the runes of the
Unicode property `White_Space`. `strings.TrimSpace` trims exactly these. -/
def isSpace (c : Char) : Bool :=
  c = '\t' || c = '\n' || c = '\x0b' || c = '\x0c' || c = '\r' || c = ' ' ||
  c = '\u0085' || c = '\u00a0' || c = '\u1680' ||
  (0x2000 ≤ c.toNat && c.toNat ≤ 0x200a) ||
  c = '\u2028' || c = '\u2029' || c = '\u202f' || c = '\u205f' || c = '\u3000'

/-- The class `\s` of Go regular expressions (RE2 syntax): `[\t\n\f\r ]`. -/
def isReSpace (c : Char) : Bool :=
  c = '\t' || c = '\n' || c = '\x0c' || c = '\r' || c = ' '

/-- Go `strings.TrimSpace`. -/
def TrimSpace (s : Str) : Str :=
  (s.dropWhile isSpace).rdropWhile isSpace

/-- Go `strings.Trim(s, cutset)`. -/
def Trim (s cutset : Str) : Str :=
  (s.dropWhile (fun c => decide (c ∈ cutset))).rdropWhile (fun c => decide (c ∈ cutset))

/-- Go `strings.TrimPrefix`. -/
def TrimPrefix (s pre : Str) : Str :=
  if pre.isPrefixOf s then s.drop pre.length else s

/-- Go `strings.TrimSuffix`. -/
def TrimSuffix (s suf : Str) : Str :=
  if suf.isSuffixOf s then s.take (s.length - suf.length) else s

/-- Go `strings.SplitN(s, sep, 2)` for a one-rune separator: the text before the first
separator and the text after it, or the whole text alone when there is no separator. -/
def SplitN2 (sep : Char) : Str → List Str
  | [] => [[]]
  | c :: cs =>
    if c = sep then [[], cs]
    else
      match SplitN2 sep cs with
      | [a, b] => [c :: a, b]
      | _ => [c :: cs]

/-- Go `strings.Split(s, sep)` for a one-rune separator. -/
def Split (sep : Char) : Str → List Str
  | [] => [[]]
  | c :: cs =>
    if c = sep then [] :: Split sep cs
    else
      match Split sep cs with
      | [] => [[c]]
      | p :: ps => (c :: p) :: ps

/-- Go `unicode.ToLower`: the ASCII rule is written out in the library, the other runes
go through the Unicode case tables, here the parameter `tbl`. -/
def toLowerRune (tbl : Char → Char) (c : Char) : Char :=
  if c.toNat ≤ 0x7f then c.toLower else tbl c

/-- Go `strings.ToLower`. -/
def ToLower (tbl : Char → Char) (s : Str) : Str :=
  s.map (toLowerRune tbl)

/-- Go `strings.EqualFold(s, "true")`. The simple case-folding orbits of `t`, `r`, `u`
and `e` hold only the ASCII letter in its two cases. -/
def EqualFoldTrue (s : Str) : Bool :=
  s.map Char.toLower == "true".toList

/-- Go `fmt.Sprintf("%02d", n)` for a non-negative `n`. -/
def pad2 (n : Nat) : Str :=
  if n < 10 then '0' :: (Nat.repr n).toList else (Nat.repr n).toList

/-! ## Argument maps -/

/-- A Go `map[string]string`, as an association list with distinct keys. -/
abbrev Args := List (Str × Str)

/-- The Go map read `m[k]`: the stored value, the empty string for an absent key. -/
def Args.get : Args → Str → Str
  | [], _ => []
  | (k', v) :: m, k => if k' = k then v else Args.get m k

/-- The Go map write `m[k] = v`. -/
def Args.set : Args → Str → Str → Args
  | [], k, v => [(k, v)]
  | (k', v') :: m, k, v => if k' = k then (k, v) :: m else (k', v') :: Args.set m k v

/-! ## The action grammar -/

/-- The closing fence. -/
def fence : Str := "```".toList

/-- The opening fence of an action block. -/
def openFence : Str := "```action".toList

/-- The tail of `actionRe`: a greedy `\s*` followed by the closing fence, at the head
of `t`. -/
def closes : Str → Bool
  | [] => fence.isPrefixOf []
  | c :: t => (isReSpace c && closes t) || fence.isPrefixOf (c :: t)

/-- The lazy group `(.*?)` (with flag `s`) followed by the tail of `actionRe`: the
shortest capture after which the tail matches. -/
def lazyBody : Str → Option Str
  | [] => if closes [] then some [] else none
  | c :: t => if closes (c :: t) then some [] else (lazyBody t).map (fun b => c :: b)

/-- What follows the opening fence in `actionRe`: a greedy `\s*`, longest run first,
then the lazy group and the tail. -/
def afterOpen : Str → Option Str
  | [] => lazyBody []
  | c :: t =>
    if isReSpace c then
      match afterOpen t with
      | some b => some b
      | none => lazyBody (c :: t)
    else lazyBody (c :: t)

/-- A match of `actionRe` anchored at the head of `s`; the result is group 1. -/
def matchAt (s : Str) : Option Str :=
  if openFence.isPrefixOf s then afterOpen (s.drop openFence.length) else none

/-- The regular expression of the planner, with leftmost-first matching: group 1 of
`actionRe.FindStringSubmatch(s)`, `none` when there is no match. -/
def actionRe : Str → Option Str
  | [] => matchAt []
  | c :: t =>
    match matchAt (c :: t) with
    | some b => some b
    | none => actionRe t

/-- The cutset of quote characters of `parseAction`. -/
def quotes : Str := ['\x22', '\x27']

/-- One turn of the loop over the comma-separated pieces in `parseAction`. -/
def parseKV (args : Args) (kv : Str) : Args :=
  if TrimSpace kv = [] then args
  else
    match SplitN2 ':' kv with
    | [a, b] => args.set (Trim (TrimSpace a) quotes) (Trim (TrimSpace b) quotes)
    | _ => args

/-- The argument list of `parseAction`, from `parts[1]`. -/
def parseArgs (p1 : Str) : Args :=
  let raw := TrimSpace p1
  let raw := TrimPrefix raw ['{']
  let raw := TrimSuffix raw ['}']
  (Split ',' raw).foldl parseKV []

/-- The function `parseAction` of `planner.go`. -/
def parseAction (tbl : Char → Char) (s : Str) : Str × Args :=
  match actionRe s with
  | none => ([], [])
  | some m1 =>
    let line := TrimSpace m1
    match SplitN2 ' ' line with
    | [p0, p1] => (ToLower tbl (TrimSpace p0), parseArgs p1)
    | parts => (ToLower tbl (TrimSpace (parts.headD [])), [])

/-! ## The execution loop -/

/-- The type `llm.Message`. -/
structure Message where
  Role : Str
  Content : Str
deriving DecidableEq, Repr

/-- A call of `Core.Run` to one of its collaborators (or to the clock, or to standard
output), with the result it got. An absent error (`nil`) is `none`. -/
inductive Event where
  | now (t : Int)
  | chat (sys : Str) (msgs : List Message) (res : Except Str Str)
  | goto (url : Str) (err : Option Str)
  | click (selector : Str) (err : Option Str)
  | fill (selector text : Str) (err : Option Str)
  | press (key : Str) (err : Option Str)
  | waitIdle
  | observe (obs : Str)
  | saveArtifacts (label : Str)
  | println (line : Str)

/-- Everything `Core.Run` calls that is not in `planner.go`. Each collaborator answers as
a function of the calls made so far in the run (and of its arguments), so that every
deterministic behaviour of the model, the browser and the clock is an `Env`. Times are
readings of the monotonic clock in nanoseconds. -/
structure Env where
  /-- The Unicode lower-case table for the runes above ASCII. -/
  lowerTable : Char → Char
  /-- The function `time.Now`. -/
  now : List Event → Int
  /-- The method `cfg.LLM.Chat`. -/
  chat : List Event → Str → List Message → Except Str Str
  /-- The method `cfg.Browser.Goto`. -/
  goto : List Event → Str → Option Str
  /-- The method `cfg.Browser.Page().Click`. -/
  click : List Event → Str → Option Str
  /-- The method `cfg.Browser.Page().Fill`. -/
  fill : List Event → Str → Str → Option Str
  /-- The method `cfg.Browser.Page().Keyboard().Press`. -/
  press : List Event → Str → Option Str
  /-- The method `tools.Observe`, its error result dropped as `Run` drops it. -/
  observe : List Event → Str
  /-- The function `SummarizeForLLM`. -/
  summarize : Str → Str

/-- The system instruction of `Core.Run`. -/
def sys : Str :=
  ("Ты — автономный веб-агент. У тебя есть действия:\n\n" ++
   "- navigate \x7b\x22url\x22: string\x7d\n" ++
   "- click \x7b\x22selector\x22: string\x7d\n" ++
   "- type \x7b\x22selector\x22: string, \x22text\x22: string, \x22submit\x22: bool\x7d\n" ++
   "- observe \x7b\x7d\n" ++
   "- finish \x7b\x22report\x22: string\x7d\n\n" ++
   "Работай итеративно: анализируй цель и текущее наблюдение страницы.\n" ++
   "На каждом шаге выводи РОВНО ОДНО действие в код-блоке:\n\n" ++
   "```action\n" ++
   "<действие> <JSON-аргументы>\n" ++
   "```\n\n" ++
   "Где <действие> — одно из [navigate, click, type, observe, finish].\n" ++
   "Никакого другого текста внутри блока быть не должно.\n\n" ++
   "Если требуется выполнить рискованное действие (удаление, оплата, отправка) —\n" ++
   "сначала запроси подтверждение в ответе вне блока.\n").toList

/-- The three `return` statements of `Core.Run`. -/
inductive Outcome where
  /-- The statement `return err` after a failed `Chat`. -/
  | chatError (err : Str)
  /-- The statement `return nil` of the `finish` case. -/
  | finished
  /-- The statement `return errors.New("timeout")` after the loop. -/
  | timeout
deriving DecidableEq, Repr

/-- The `error` value `Core.Run` returns: its message, `none` for `nil`. -/
def Outcome.error : Outcome → Option Str
  | .chatError err => some err
  | .finished => none
  | .timeout => some "timeout".toList

/-- The variables of the loop of `Core.Run`, with the calls made so far. -/
structure LoopState where
  msgs : List Message
  step : Nat
  trace : List Event

/-- What the `switch action` statement of `Core.Run` leaves behind. -/
inductive Dispatched where
  /-- The `finish` case has returned from `Run`. -/
  | returned (trace : List Event)
  /-- The other cases have set `observation`. -/
  | observed (observation : Str) (trace : List Event)

/-- The end of the `navigate`, `click` and `type` cases when the browser call succeeded:
`WaitIdle`, then a fresh observation. -/
def settle (E : Env) (tr : List Event) : Dispatched :=
  let tr := tr ++ [Event.waitIdle]
  let o := E.observe tr
  .observed o (tr ++ [Event.observe o])

/-- The `switch action` statement of `Core.Run`. -/
def dispatch (E : Env) (action : Str) (payload : Args) (tr : List Event) : Dispatched :=
  if action = "navigate".toList then
    let url := payload.get "url".toList
    if url = [] then .observed "ERROR: empty url".toList tr
    else
      let r := E.goto tr url
      let tr := tr ++ [Event.goto url r]
      match r with
      | some err => .observed ("ERROR: ".toList ++ err) tr
      | none => settle E tr
  else if action = "click".toList then
    let selector := payload.get "selector".toList
    if selector = [] then .observed "ERROR: empty selector".toList tr
    else
      let r := E.click tr selector
      let tr := tr ++ [Event.click selector r]
      match r with
      | some err => .observed ("ERROR: ".toList ++ err) tr
      | none => settle E tr
  else if action = "type".toList then
    let selector := payload.get "selector".toList
    let text := payload.get "text".toList
    let submit := EqualFoldTrue (payload.get "submit".toList)
    if selector = [] then .observed "ERROR: empty selector".toList tr
    else
      let r := E.fill tr selector text
      let tr := tr ++ [Event.fill selector text r]
      match r with
      | some err => .observed ("ERROR: ".toList ++ err) tr
      | none =>
        let tr := if submit then tr ++ [Event.press "Enter".toList (E.press tr "Enter".toList)] else tr
        settle E tr
  else if action = "observe".toList then
    let o := E.observe tr
    .observed o (tr ++ [Event.observe o])
  else if action = "finish".toList then
    .returned (tr ++ [Event.println ("\n[ОТЧЁТ]\n".toList ++ payload.get "report".toList)])
  else .observed "ERROR: unknown action".toList tr

/-- The label `fmt.Sprintf("step%02d_%s", step, action)`. -/
def artifactLabel (step : Nat) (action : Str) : Str :=
  "step".toList ++ pad2 step ++ '_' :: action

/-- The corrective instruction appended after a turn without an action. -/
def repairPrompt : Str :=
  "Пожалуйста, выдай следующий шаг строго в блоке ```action```.".toList

/-- One evaluation of the loop condition and, when it holds, one pass through the loop
body of `Core.Run`: either `Run` returns (left) or the loop goes on (right). -/
def iteration (E : Env) (deadline : Int) (s : LoopState) :
    (Outcome × LoopState) ⊕ LoopState :=
  let t := E.now s.trace
  let tr := s.trace ++ [Event.now t]
  if t < deadline then
    let step := s.step + 1
    let r := E.chat tr sys s.msgs
    let tr := tr ++ [Event.chat sys s.msgs r]
    match r with
    | .error err => .inl (.chatError err, ⟨s.msgs, step, tr⟩)
    | .ok out =>
      let (action, payload) := parseAction E.lowerTable out
      if action = [] then
        .inr ⟨s.msgs ++ [⟨"assistant".toList, out⟩, ⟨"user".toList, repairPrompt⟩], step, tr⟩
      else
        match dispatch E action payload tr with
        | .returned tr => .inl (.finished, ⟨s.msgs, step, tr⟩)
        | .observed observation tr =>
          let tr := tr ++ [Event.saveArtifacts (artifactLabel step action)]
          .inr ⟨s.msgs ++ [⟨"assistant".toList, out⟩,
                  ⟨"user".toList, "Наблюдение:\n".toList ++ E.summarize observation⟩], step, tr⟩
  else .inl (.timeout, ⟨s.msgs, s.step, tr⟩)

/-- The loop of `Core.Run`, run for at most `fuel` evaluations of its condition: the
way `Run` returned, if it did, and the variables at that point. -/
def runLoop (E : Env) (deadline : Int) : Nat → LoopState → Option Outcome × LoopState
  | 0, s => (none, s)
  | fuel + 1, s =>
    match iteration E deadline s with
    | .inl (o, s') => (some o, s')
    | .inr s' => runLoop E deadline fuel s'

/-- The variables of `Core.Run` when it reaches its loop: the first observation has been
taken, the history seeded and the clock read for the deadline. -/
def Run.init (E : Env) (goal : Str) : LoopState :=
  let obs := E.observe []
  let tr := [Event.observe obs]
  let ctxShort := E.summarize obs
  let msgs : List Message :=
    [⟨"system".toList, sys⟩,
     ⟨"user".toList, "Цель: ".toList ++ goal ++ "\nТекущее наблюдение:\n".toList ++ ctxShort⟩]
  ⟨msgs, 0, tr ++ [Event.now (E.now tr)]⟩

/-- The local `deadline` of `Core.Run`: `time.Now().Add(maxTime)`. -/
def Run.deadline (E : Env) (maxTime : Int) : Int :=
  E.now [Event.observe (E.observe [])] + maxTime

/-- The method `Core.Run` of `planner.go`, its loop run for at most `fuel` evaluations of
the loop condition. -/
def Run (E : Env) (goal : Str) (maxTime : Int) (fuel : Nat) : Option Outcome × LoopState :=
  runLoop E (Run.deadline E maxTime) fuel (Run.init E goal)

/-! ## Reading a trace -/

/-- The calls that act on the browser: navigate, click, fill, key press, wait-idle. -/
def Event.isBrowserCall : Event → Bool
  | .goto _ _ => true
  | .click _ _ => true
  | .fill _ _ _ => true
  | .press _ _ => true
  | .waitIdle => true
  | _ => false

/-- The calls the `switch` statement makes before it sets `observation`: the browser
calls and `tools.Observe`. -/
def Event.isToolCall : Event → Bool
  | .goto _ _ => true
  | .click _ _ => true
  | .fill _ _ _ => true
  | .press _ _ => true
  | .waitIdle => true
  | .observe _ => true
  | _ => false

/-- The `Chat` calls of a trace, in order: the history each was given and its result. -/
def chatCalls : List Event → List (List Message × Except Str Str)
  | [] => []
  | .chat _ msgs res :: tr => (msgs, res) :: chatCalls tr
  | _ :: tr => chatCalls tr

/-- The results of the `Chat` calls of a trace, in order. -/
def chatResults (tr : List Event) : List (Except Str Str) :=
  (chatCalls tr).map Prod.snd

/-- The clock readings of a trace, in order. -/
def clockReads : List Event → List Int
  | [] => []
  | .now t :: tr => t :: clockReads tr
  | _ :: tr => clockReads tr

/-- The labels given to `SaveArtifacts` in a trace, in order. -/
def savedLabels : List Event → List Str
  | [] => []
  | .saveArtifacts l :: tr => l :: savedLabels tr
  | _ :: tr => savedLabels tr

/-- The labels given to `SaveArtifacts` in a trace, each with the `Chat` calls made
before it, `acc` being the `Chat` calls made before the trace. -/
def stampLabels (acc : List (List Message × Except Str Str)) :
    List Event → List (List (List Message × Except Str Str) × Str)
  | [] => []
  | .chat _ msgs res :: tr => stampLabels (acc ++ [(msgs, res)]) tr
  | .saveArtifacts l :: tr => (acc, l) :: stampLabels acc tr
  | .now _ :: tr => stampLabels acc tr
  | .goto _ _ :: tr => stampLabels acc tr
  | .click _ _ :: tr => stampLabels acc tr
  | .fill _ _ _ :: tr => stampLabels acc tr
  | .press _ _ :: tr => stampLabels acc tr
  | .waitIdle :: tr => stampLabels acc tr
  | .observe _ :: tr => stampLabels acc tr
  | .println _ :: tr => stampLabels acc tr

/-- A result of `Chat` after which the loop goes on: a reply whose parsed action is not
`finish`. -/
def continues (E : Env) (r : Except Str Str) : Prop :=
  ∃ out, r = .ok out ∧ (parseAction E.lowerTable out).1 ≠ "finish".toList

/-- The relation between the histories of two successive `Chat` calls: the later history
is the earlier one, then the earlier reply as an `assistant` message, then one `user`
message. -/
def extendsBy (a b : List Message × Except Str Str) : Prop :=
  ∃ out u, a.2 = .ok out ∧ b.1 = a.1 ++ [⟨"assistant".toList, out⟩, ⟨"user".toList, u⟩]

/-! ## Sample environments -/

/-- A text wrapped in an action block, each fence on a line of its own. -/
def fenced (content : Str) : Str :=
  openFence ++ '\n' :: content ++ '\n' :: fence

/-! ## Written blocks

The texts of the form `<name> {k1: v1, k2: v2, ...}`, each key and value bare or in
quotes, on which the parser is checked to return what was written. -/

/-- How a key or a value is written: bare, in double quotes or in single quotes. -/
inductive Quote where
  | bare
  | double
  | single

/-- A text in the given quotes. -/
def Quote.wrap : Quote → Str → Str
  | .bare, s => s
  | .double, s => '\x22' :: s ++ ['\x22']
  | .single, s => '\x27' :: s ++ ['\x27']

/-- A key and a value with the way each is written. -/
structure Written where
  keyQuote : Quote
  key : Str
  valueQuote : Quote
  value : Str

/-- The text `key: value` of a written pair. -/
def Written.text (w : Written) : Str :=
  w.keyQuote.wrap w.key ++ ':' :: ' ' :: w.valueQuote.wrap w.value

/-- The pairs after the first, each preceded by a comma and a space. -/
def writeMore : List Written → Str
  | [] => []
  | w :: ws => ',' :: ' ' :: w.text ++ writeMore ws

/-- The text `k1: v1, k2: v2, ...` of a list of written pairs. -/
def writeArgs : List Written → Str
  | [] => []
  | w :: ws => w.text ++ writeMore ws

/-- The action block with content `<name> {k1: v1, k2: v2, ...}`. -/
def writeBlock (name : Str) (ws : List Written) : Str :=
  fenced (name ++ ' ' :: '{' :: writeArgs ws ++ ['}'])

/-- A key or value without comma, brace, quote character or backtick, and without
leading or trailing whitespace. -/
def PlainToken (s : Str) : Prop :=
  (∀ c ∈ s, c ≠ ',' ∧ c ≠ '{' ∧ c ≠ '}' ∧ c ≠ '\x22' ∧ c ≠ '\x27' ∧ c ≠ '\x60') ∧
  (∀ c, s.head? = some c → isSpace c = false) ∧
  (∀ c, s.getLast? = some c → isSpace c = false)

/-- An environment that plays a fixed list of model replies (then fails), whose browser
calls succeed except the key press, whose page reads `page`, and whose clock advances by
one at every call. -/
def scriptEnv (replies : List Str) : Env where
  lowerTable := id
  now := fun tr => tr.length
  chat := fun tr _ _ =>
    match replies.get? (chatCalls tr).length with
    | some r => .ok r
    | none => .error "eof".toList
  goto := fun _ _ => none
  click := fun _ _ => none
  fill := fun _ _ _ => none
  press := fun _ _ => some "boom".toList
  observe := fun _ => "page".toList
  summarize := id

/-- The environment `scriptEnv []` with a click that fails with `gone`. -/
def clickFailEnv : Env where
  lowerTable := id
  now := fun tr => tr.length
  chat := fun _ _ _ => .error "eof".toList
  goto := fun _ _ => none
  click := fun _ _ => some "gone".toList
  fill := fun _ _ _ => none
  press := fun _ _ => none
  observe := fun _ => "page".toList
  summarize := id

/-- An environment whose clock stands still at 0 and whose model always replies `hello`,
a text without an action block. -/
def frozenEnv : Env where
  lowerTable := id
  now := fun _ => 0
  chat := fun _ _ _ => .ok "hello".toList
  goto := fun _ _ => none
  click := fun _ _ => none
  fill := fun _ _ _ => none
  press := fun _ _ => none
  observe := fun _ => "page".toList
  summarize := id

/-! ## The action grammar: what the regular expression returns -/

theorem matchAt_some_actionRe (s b : Str) (h : matchAt s = some b) : actionRe s = some b := by
  cases s with
  | nil => simpa [actionRe] using h
  | cons c t => simp [actionRe, h]

theorem matchAt_none_actionRe (c : Char) (t : Str) (h : matchAt (c :: t) = none) :
    actionRe (c :: t) = actionRe t := by
  simp [actionRe, h]

theorem matchAt_of_not_prefix (s : Str) (h : ¬ openFence <+: s) : matchAt s = none := by
  have : openFence.isPrefixOf s = false := by
    rw [Bool.eq_false_iff]
    intro hp
    exact h (List.isPrefixOf_iff_prefix.1 hp)
  simp [matchAt, this]

theorem matchAt_openFence (x : Str) : matchAt (openFence ++ x) = afterOpen x := by
  have : openFence.isPrefixOf (openFence ++ x) = true :=
    List.isPrefixOf_iff_prefix.2 (List.prefix_append _ _)
  simp [matchAt, this]

theorem actionRe_none_of_no_open (s : Str) (h : ¬ openFence <:+: s) : actionRe s = none := by
  induction s with
  | nil =>
    have : matchAt [] = none := matchAt_of_not_prefix [] (fun hp => h hp.isInfix)
    simpa [actionRe] using this
  | cons c t ih =>
    have h1 : matchAt (c :: t) = none := matchAt_of_not_prefix _ (fun hp => h hp.isInfix)
    rw [matchAt_none_actionRe c t h1]
    exact ih (fun hi => h (hi.trans (List.suffix_cons c t).isInfix))

/-- C4: a text with no occurrence of the opening action fence parses to the empty
action name and no arguments. -/
theorem C4_no_fence_no_action (tbl : Char → Char) (s : Str) (h : ¬ openFence <:+: s) :
    parseAction tbl s = ([], []) := by
  simp [parseAction, actionRe_none_of_no_open s h]

/-- An instance of C4: a text with a plain code fence only. -/
theorem C4_witness :
    ¬ openFence <:+: "go ```click```".toList ∧
    parseAction id "go ```click```".toList = ([], []) :=
  ⟨by decide, C4_no_fence_no_action id "go ```click```".toList (by decide)⟩

theorem fence_isPrefixOf_ext (c : Char) (content post : Str) :
    fence.isPrefixOf (c :: (content ++ fence ++ post)) =
      fence.isPrefixOf (c :: (content ++ fence)) := by
  rcases content with _ | ⟨a, _ | ⟨b, l⟩⟩ <;> simp [fence, List.isPrefixOf]

theorem closes_cons (c : Char) (t : Str) :
    closes (c :: t) = (isReSpace c && closes t || fence.isPrefixOf (c :: t)) := rfl

theorem lazyBody_cons (c : Char) (t : Str) :
    lazyBody (c :: t) =
      if closes (c :: t) then some [] else (lazyBody t).map (fun b => c :: b) := rfl

theorem afterOpen_cons (c : Char) (t : Str) :
    afterOpen (c :: t) =
      if isReSpace c then
        match afterOpen t with
        | some b => some b
        | none => lazyBody (c :: t)
      else lazyBody (c :: t) := rfl

theorem closes_fence (x : Str) : closes (fence ++ x) = true := by
  have : fence.isPrefixOf (fence ++ x) = true :=
    List.isPrefixOf_iff_prefix.2 (List.prefix_append _ _)
  have e : fence ++ x = '\x60' :: ('\x60' :: '\x60' :: x) := rfl
  rw [e] at this ⊢
  rw [closes_cons, this, Bool.or_true]

theorem closes_ext (content post : Str) :
    closes (content ++ fence ++ post) = closes (content ++ fence) := by
  induction content with
  | nil => rw [List.nil_append, closes_fence, ← List.append_nil fence, closes_fence]
  | cons c t ih =>
    simp only [List.cons_append]
    rw [closes_cons, closes_cons, ih, fence_isPrefixOf_ext]

theorem lazyBody_fence (x : Str) : lazyBody (fence ++ x) = some [] := by
  have h := closes_fence x
  have e : fence ++ x = '\x60' :: ('\x60' :: '\x60' :: x) := rfl
  rw [e] at h ⊢
  rw [lazyBody_cons, h]
  rfl

theorem lazyBody_ext (content post : Str) :
    lazyBody (content ++ fence ++ post) = lazyBody (content ++ fence) := by
  induction content with
  | nil => rw [List.nil_append, lazyBody_fence, ← List.append_nil fence, lazyBody_fence]
  | cons c t ih =>
    have h := closes_ext (c :: t) post
    simp only [List.cons_append] at h ⊢
    rw [lazyBody_cons, lazyBody_cons, ih, h]

theorem lazyBody_isSome (content : Str) : (lazyBody (content ++ fence)).isSome = true := by
  induction content with
  | nil => rw [List.nil_append, ← List.append_nil fence, lazyBody_fence]; rfl
  | cons c t ih =>
    rw [List.cons_append, lazyBody_cons]
    split
    · rfl
    · rw [Option.isSome_map']; exact ih

theorem afterOpen_fence (x : Str) : afterOpen (fence ++ x) = some [] := by
  have h := lazyBody_fence x
  have e : fence ++ x = '\x60' :: ('\x60' :: '\x60' :: x) := rfl
  rw [e] at h ⊢
  rw [afterOpen_cons, h]
  rfl

theorem afterOpen_ext (content post : Str) :
    afterOpen (content ++ fence ++ post) = afterOpen (content ++ fence) := by
  induction content with
  | nil => rw [List.nil_append, afterOpen_fence, ← List.append_nil fence, afterOpen_fence]
  | cons c t ih =>
    have h := lazyBody_ext (c :: t) post
    simp only [List.cons_append] at h ⊢
    rw [afterOpen_cons, afterOpen_cons, ih, h]

theorem afterOpen_isSome (content : Str) : (afterOpen (content ++ fence)).isSome = true := by
  induction content with
  | nil => rw [List.nil_append, ← List.append_nil fence, afterOpen_fence]; rfl
  | cons c t ih =>
    have hl := lazyBody_isSome (c :: t)
    rw [List.cons_append] at hl
    rw [List.cons_append, afterOpen_cons]
    split
    · cases ha : afterOpen (t ++ fence) with
      | some b => rfl
      | none => exact hl
    · exact hl

theorem openFence_straddle (p r : Str) (hp : p ≠ [])
    (h : openFence.isPrefixOf (p ++ (openFence ++ r)) = true) :
    openFence.isPrefixOf p = true := by
  rcases p with _ | ⟨a1, _ | ⟨a2, _ | ⟨a3, _ | ⟨a4, _ | ⟨a5, _ | ⟨a6, _ | ⟨a7, _ | ⟨a8, _ |
    ⟨a9, p⟩⟩⟩⟩⟩⟩⟩⟩⟩
  · exact absurd rfl hp
  all_goals simp [openFence, List.isPrefixOf] at h ⊢
  all_goals exact h

theorem actionRe_skip_pre (pre rest : Str) (h : ¬ openFence <:+: pre) :
    actionRe (pre ++ (openFence ++ rest)) = actionRe (openFence ++ rest) := by
  induction pre with
  | nil => rfl
  | cons c t ih =>
    have h1 : matchAt (c :: t ++ (openFence ++ rest)) = none := by
      apply matchAt_of_not_prefix
      intro hp
      have := openFence_straddle (c :: t) rest (by simp) (List.isPrefixOf_iff_prefix.2 hp)
      exact h (List.isPrefixOf_iff_prefix.1 this).isInfix
    rw [List.cons_append] at h1 ⊢
    rw [matchAt_none_actionRe c _ h1]
    exact ih (fun hi => h (hi.trans (List.suffix_cons c t).isInfix))

theorem actionRe_block (content post : Str) :
    actionRe (openFence ++ content ++ fence ++ post) = afterOpen (content ++ fence) := by
  have h : matchAt (openFence ++ content ++ fence ++ post) = afterOpen (content ++ fence) := by
    rw [List.append_assoc, List.append_assoc, matchAt_openFence, ← List.append_assoc,
      afterOpen_ext]
  cases ha : afterOpen (content ++ fence) with
  | none =>
    have := afterOpen_isSome content
    rw [ha] at this
    cases this
  | some b =>
    rw [ha] at h
    exact matchAt_some_actionRe _ b h

/-- C6: for a block made of the opening action fence, any content and the closing fence,
a text before it that holds no opening action fence and any text after it do not change
what `parseAction` returns; the content need not even be free of backticks. -/
theorem C6_first_block_only (tbl : Char → Char) (pre content post : Str)
    (hpre : ¬ openFence <:+: pre) :
    parseAction tbl (pre ++ (openFence ++ content ++ fence) ++ post) =
      parseAction tbl (openFence ++ content ++ fence) := by
  have h1 : actionRe (pre ++ (openFence ++ content ++ fence) ++ post) =
      afterOpen (content ++ fence) := by
    have e : pre ++ (openFence ++ content ++ fence) ++ post =
        pre ++ (openFence ++ (content ++ fence ++ post)) := by
      simp only [List.append_assoc]
    rw [e, actionRe_skip_pre pre _ hpre]
    have := actionRe_block content post
    simp only [List.append_assoc] at this ⊢
    exact this
  have h2 : actionRe (openFence ++ content ++ fence) = afterOpen (content ++ fence) := by
    have := actionRe_block content []
    simpa using this
  simp only [parseAction, h1, h2]

/-- An instance of C6: text before the block, and a second block after it. -/
theorem C6_witness :
    ¬ openFence <:+: "I will click. ``".toList ∧
    parseAction id ("I will click. ``".toList ++
        (openFence ++ " click \x7bselector: #go\x7d ".toList ++ fence) ++
        (" then ".toList ++ fenced "finish \x7b\x7d".toList)) =
      parseAction id (openFence ++ " click \x7bselector: #go\x7d ".toList ++ fence) :=
  ⟨by decide, C6_first_block_only id "I will click. ``".toList
    " click \x7bselector: #go\x7d ".toList (" then ".toList ++ fenced "finish \x7b\x7d".toList)
    (by decide)⟩

/-! ## The action grammar: trimming and splitting -/

theorem dropWhile_append_all (p : Char → Bool) (a x : Str) (ha : ∀ c ∈ a, p c = true) :
    (a ++ x).dropWhile p = x.dropWhile p := by
  induction a with
  | nil => rfl
  | cons c a ih =>
    have hc := ha c (List.mem_cons_self _ _)
    rw [List.cons_append, List.dropWhile_cons, if_pos hc]
    exact ih (fun c' hc' => ha c' (List.mem_cons_of_mem _ hc'))

theorem dropWhile_all (p : Char → Bool) (a : Str) (ha : ∀ c ∈ a, p c = true) :
    a.dropWhile p = [] := by
  have := dropWhile_append_all p a [] ha
  simpa using this

theorem dropWhile_head (p : Char → Bool) (k : Str)
    (hh : ∀ c, k.head? = some c → p c = false) : k.dropWhile p = k := by
  cases k with
  | nil => rfl
  | cons c k =>
    have := hh c rfl
    rw [List.dropWhile_cons, this]
    rfl

theorem rdropWhile_append_all (p : Char → Bool) (k b : Str) (hb : ∀ c ∈ b, p c = true) :
    (k ++ b).rdropWhile p = k.rdropWhile p := by
  unfold List.rdropWhile
  rw [List.reverse_append, dropWhile_append_all p _ _ (fun c hc => hb c (List.mem_reverse.1 hc))]

theorem rdropWhile_last (p : Char → Bool) (k : Str)
    (hl : ∀ c, k.getLast? = some c → p c = false) : k.rdropWhile p = k := by
  unfold List.rdropWhile
  rw [dropWhile_head p k.reverse (by
    intro c hc
    rw [List.head?_reverse] at hc
    exact hl c hc), List.reverse_reverse]

/-- Trimming, on both sides, a text `k` that neither starts nor ends with a character to
trim, wrapped in characters to trim. -/
theorem trim_core (p : Char → Bool) (a k b : Str) (ha : ∀ c ∈ a, p c = true)
    (hb : ∀ c ∈ b, p c = true) (hh : ∀ c, k.head? = some c → p c = false)
    (hl : ∀ c, k.getLast? = some c → p c = false) :
    ((a ++ k ++ b).dropWhile p).rdropWhile p = k := by
  rw [List.append_assoc, dropWhile_append_all p a _ ha]
  cases k with
  | nil =>
    rw [List.nil_append, dropWhile_all p b hb]
    rfl
  | cons c k =>
    rw [dropWhile_head p (c :: k ++ b) (by
      intro c' hc'
      exact hh c' (by simpa using hc')),
      rdropWhile_append_all p _ _ hb, rdropWhile_last p _ hl]

theorem head?_rdropWhile_dropWhile (p : Char → Bool) (s : Str) :
    ∀ c, ((s.dropWhile p).rdropWhile p).head? = some c → p c = false := by
  intro c hc
  have hpre : (s.dropWhile p).rdropWhile p <+: s.dropWhile p := List.rdropWhile_prefix p _
  obtain ⟨t, ht⟩ := hpre
  cases hk : (s.dropWhile p).rdropWhile p with
  | nil => rw [hk] at hc; cases hc
  | cons x k =>
    rw [hk] at hc ht
    simp only [List.head?_cons, Option.some.injEq] at hc
    subst hc
    have := List.head_dropWhile_not p s (by rw [← ht]; simp)
    simp only [← ht, List.cons_append, List.head_cons] at this
    simpa using this

theorem getLast?_rdropWhile (p : Char → Bool) (s : Str) :
    ∀ c, (s.rdropWhile p).getLast? = some c → p c = false := by
  intro c hc
  unfold List.rdropWhile at hc
  rw [List.getLast?_reverse] at hc
  cases hk : s.reverse.dropWhile p with
  | nil => rw [hk] at hc; cases hc
  | cons x k =>
    have := List.head_dropWhile_not p s.reverse (by rw [hk]; simp)
    simp only [hk, List.head_cons] at this
    rw [hk] at hc
    simp only [List.head?_cons, Option.some.injEq] at hc
    subst hc
    simpa using this

theorem TrimSpace_idem (s : Str) : TrimSpace (TrimSpace s) = TrimSpace s := by
  have := trim_core isSpace [] (TrimSpace s) [] (by simp) (by simp)
    (head?_rdropWhile_dropWhile isSpace s) (getLast?_rdropWhile isSpace _)
  simpa [TrimSpace] using this

theorem SplitN2_of_not_mem (sep : Char) (l : Str) (h : sep ∉ l) : SplitN2 sep l = [l] := by
  induction l with
  | nil => rfl
  | cons c l ih =>
    have hc : c ≠ sep := fun e => h (by rw [e]; exact List.mem_cons_self _ _)
    have := ih (fun hm => h (List.mem_cons_of_mem _ hm))
    simp [SplitN2, hc, this]

theorem SplitN2_split (sep : Char) (a b : Str) (h : sep ∉ a) :
    SplitN2 sep (a ++ sep :: b) = [a, b] := by
  induction a with
  | nil => simp [SplitN2]
  | cons c a ih =>
    have hc : c ≠ sep := fun e => h (by rw [e]; exact List.mem_cons_self _ _)
    have := ih (fun hm => h (List.mem_cons_of_mem _ hm))
    simp [SplitN2, hc, this]

/-- C5 as stated fails: a tab does not end the action name. For the block content
`click<TAB>{selector: #go}` the first whitespace-delimited token is `click`, and the
name returned runs up to the first space. -/
theorem C5_counterexample_tab :
    actionRe (fenced "click\t\x7bselector: #go\x7d".toList) =
      some "click\t\x7bselector: #go\x7d".toList ∧
    "click\t\x7bselector: #go\x7d".toList.takeWhile (fun c => !isSpace c) = "click".toList ∧
    parseAction id (fenced "click\t\x7bselector: #go\x7d".toList) =
      ("click\t\x7bselector:".toList, []) := by
  refine ⟨by decide, by decide, by decide⟩

/-- C5, amended: for a text with an action block, whose group 1 is `m1`, the action name
ends at the first space character (U+0020) of the trimmed content, and only there: when
the trimmed content is `tok`, a space, `rest`, with no space in `tok`, the name is `tok`
trimmed and lower-cased (a tab or a newline inside `tok` stays in the name) and the
arguments are parsed from `rest`; when the trimmed content has no space, it is the name,
lower-cased, and there are no arguments. -/
theorem C5_name_ends_at_first_space (tbl : Char → Char) (s m1 : Str)
    (h : actionRe s = some m1) :
    (∀ tok rest, ' ' ∉ tok → TrimSpace m1 = tok ++ ' ' :: rest →
      parseAction tbl s = (ToLower tbl (TrimSpace tok), parseArgs rest)) ∧
    (' ' ∉ TrimSpace m1 → parseAction tbl s = (ToLower tbl (TrimSpace m1), [])) := by
  refine ⟨?_, ?_⟩
  · intro tok rest htok hline
    simp only [parseAction, h, hline, SplitN2_split ' ' tok rest htok]
  · intro hno
    simp only [parseAction, h, SplitN2_of_not_mem ' ' _ hno, List.headD_cons, TrimSpace_idem]

/-- An instance of the amended C5: the name `Click`, followed by a tab and a space. -/
theorem C5_witness :
    parseAction id (fenced "Click\t \x7bselector: #go\x7d".toList) =
      (ToLower id (TrimSpace "Click\t".toList), parseArgs "\x7bselector: #go\x7d".toList) :=
  (C5_name_ends_at_first_space id (fenced "Click\t \x7bselector: #go\x7d".toList)
    "Click\t \x7bselector: #go\x7d".toList (by decide)).1 "Click\t".toList
    "\x7bselector: #go\x7d".toList (by decide) (by decide)

/-! ## The action grammar: written blocks -/

theorem isReSpace_isSpace (c : Char) (h : isSpace c = false) : isReSpace c = false := by
  simp only [isSpace, Bool.or_eq_false_iff, decide_eq_false_iff_not] at h
  simp only [isReSpace, Bool.or_eq_false_iff, decide_eq_false_iff_not]
  tauto

theorem fence_isPrefixOf_cons (c : Char) (t : Str) (h : c ≠ '\x60') :
    fence.isPrefixOf (c :: t) = false := by
  simp [fence, List.isPrefixOf, Ne.symm h]

theorem fence_prefix_cut (n x : Str) (d : Char) (hd : d ≠ '\x60')
    (h : fence.isPrefixOf (n ++ d :: x) = true) : fence.isPrefixOf n = true := by
  rcases n with _ | ⟨a, _ | ⟨b, _ | ⟨c, n⟩⟩⟩ <;>
    simp [fence, List.isPrefixOf] at h ⊢
  · exact hd h.1.symm
  · exact hd h.2.1.symm
  · exact hd h.2.2.symm
  · exact h

theorem closes_tail (v x : Str) (hv : ∀ c ∈ v, c ≠ '\x60') : closes (v ++ '}' :: x) = false := by
  induction v with
  | nil =>
    rw [List.nil_append, closes_cons, fence_isPrefixOf_cons _ _ (by decide)]
    rfl
  | cons c v ih =>
    rw [List.cons_append, closes_cons, ih (fun c' hc' => hv c' (List.mem_cons_of_mem _ hc')),
      fence_isPrefixOf_cons _ _ (hv c (List.mem_cons_self _ _))]
    simp

theorem closes_name (c : Char) (n x : Str) (hc : isSpace c = false)
    (hf : ¬ fence <+: c :: n) : closes (c :: n ++ ' ' :: x) = false := by
  have h1 : fence.isPrefixOf ((c :: n) ++ ' ' :: x) = false := by
    rw [Bool.eq_false_iff]
    intro h
    exact hf (List.isPrefixOf_iff_prefix.1 (fence_prefix_cut _ _ _ (by decide) h))
  rw [List.cons_append] at h1 ⊢
  rw [closes_cons, h1, isReSpace_isSpace c hc]
  rfl

theorem lazyBody_of_closes (w : Str) (h : closes w = true) : lazyBody w = some [] := by
  cases w with
  | nil => simp [lazyBody, h]
  | cons c t => rw [lazyBody_cons, if_pos h]

theorem lazyBody_tail (v w : Str) (hv : ∀ c ∈ v, c ≠ '\x60') (hw : closes w = true) :
    lazyBody (v ++ '}' :: w) = some (v ++ ['}']) := by
  induction v with
  | nil =>
    have := closes_tail [] w (by simp)
    rw [List.nil_append] at this ⊢
    rw [lazyBody_cons, this, lazyBody_of_closes w hw]
    rfl
  | cons c v ih =>
    have := closes_tail (c :: v) w hv
    rw [List.cons_append] at this ⊢
    rw [lazyBody_cons, this, ih (fun c' hc' => hv c' (List.mem_cons_of_mem _ hc'))]
    rfl

theorem lazyBody_name (n x : Str) (hsp : ∀ c ∈ n, isSpace c = false)
    (hf : ¬ fence <:+: n) :
    lazyBody (n ++ ' ' :: x) = (lazyBody (' ' :: x)).map (fun b => n ++ b) := by
  induction n with
  | nil => simp
  | cons c n ih =>
    have h1 := closes_name c n x (hsp c (List.mem_cons_self _ _)) (fun hp => hf hp.isInfix)
    rw [List.cons_append] at h1 ⊢
    rw [lazyBody_cons, h1, ih (fun c' hc' => hsp c' (List.mem_cons_of_mem _ hc'))
      (fun hi => hf (hi.trans (List.suffix_cons c n).isInfix))]
    simp [Option.map_map, Function.comp_def]

/-- The regular expression on a written block: group 1 is the content. -/
theorem actionRe_written (name body : Str) (hne : name ≠ [])
    (hsp : ∀ c ∈ name, isSpace c = false) (hf : ¬ fence <:+: name)
    (hb : ∀ c ∈ body, c ≠ '\x60') :
    actionRe (fenced (name ++ ' ' :: '{' :: body ++ ['}'])) =
      some (name ++ ' ' :: '{' :: body ++ ['}']) := by
  have hw : closes ('\n' :: fence) = true := by decide
  have hl : lazyBody (name ++ ' ' :: '{' :: body ++ ['}'] ++ '\n' :: fence) =
      some (name ++ ' ' :: '{' :: body ++ ['}']) := by
    have e : name ++ ' ' :: '{' :: body ++ ['}'] ++ '\n' :: fence =
        name ++ ' ' :: ((['{'] ++ body) ++ '}' :: ('\n' :: fence)) := by simp
    have ht := lazyBody_tail (' ' :: (['{'] ++ body)) ('\n' :: fence) (by
      intro c hc
      simp only [List.mem_cons, List.mem_append, List.mem_singleton, List.not_mem_nil,
        or_false] at hc
      rcases hc with rfl | rfl | hc
      · decide
      · decide
      · exact hb c hc) hw
    rw [e, lazyBody_name name _ hsp hf]
    rw [List.cons_append] at ht
    rw [ht]
    simp
  obtain ⟨c, n, rfl⟩ := List.exists_cons_of_ne_nil hne
  have hc := isReSpace_isSpace c (hsp c (List.mem_cons_self _ _))
  have ha : afterOpen ('\n' :: (c :: n ++ ' ' :: '{' :: body ++ ['}'] ++ '\n' :: fence)) =
      some (c :: n ++ ' ' :: '{' :: body ++ ['}']) := by
    rw [afterOpen_cons]
    have h2 : afterOpen (c :: n ++ ' ' :: '{' :: body ++ ['}'] ++ '\n' :: fence) =
        some (c :: n ++ ' ' :: '{' :: body ++ ['}']) := by
      rw [← hl]
      simp only [List.cons_append]
      rw [afterOpen_cons, if_neg (by simp [hc])]
    rw [h2]
    rfl
  apply matchAt_some_actionRe
  have e : fenced (c :: n ++ ' ' :: '{' :: body ++ ['}']) =
      openFence ++ '\n' :: (c :: n ++ ' ' :: '{' :: body ++ ['}'] ++ '\n' :: fence) := by
    simp [fenced]
  rw [e, matchAt_openFence, ha]

theorem TrimSpace_lead (lead x : Str) (hlead : ∀ c ∈ lead, isSpace c = true)
    (hh : ∀ c, x.head? = some c → isSpace c = false)
    (hl : ∀ c, x.getLast? = some c → isSpace c = false) : TrimSpace (lead ++ x) = x := by
  have := trim_core isSpace lead x [] hlead (by simp) hh hl
  simpa [TrimSpace] using this

theorem TrimSpace_self (x : Str) (hh : ∀ c, x.head? = some c → isSpace c = false)
    (hl : ∀ c, x.getLast? = some c → isSpace c = false) : TrimSpace x = x :=
  TrimSpace_lead [] x (by simp) hh hl

theorem TrimSpace_ne_nil (s : Str) (c : Char) (hc : c ∈ s) (hns : isSpace c = false) :
    TrimSpace s ≠ [] := by
  intro h
  have h1 : ∀ x ∈ s.dropWhile isSpace, isSpace x = true :=
    List.rdropWhile_eq_nil_iff.1 h
  have h2 : s.dropWhile isSpace = [] := by
    by_contra hne
    have hnot := List.head_dropWhile_not isSpace s hne
    have := h1 _ (List.head_mem hne)
    rw [this] at hnot
    cases hnot
  have := List.dropWhile_eq_nil_iff.1 h2 c hc
  rw [hns] at this
  cases this

theorem wrap_head (q : Quote) (s : Str) (hs : ∀ c, s.head? = some c → isSpace c = false) :
    ∀ c, (q.wrap s).head? = some c → isSpace c = false := by
  intro c hc
  cases q with
  | bare => exact hs c hc
  | double =>
    simp only [Quote.wrap, List.cons_append, List.head?_cons, Option.some.injEq] at hc
    subst hc; decide
  | single =>
    simp only [Quote.wrap, List.cons_append, List.head?_cons, Option.some.injEq] at hc
    subst hc; decide

theorem wrap_last (q : Quote) (s : Str) (hs : ∀ c, s.getLast? = some c → isSpace c = false) :
    ∀ c, (q.wrap s).getLast? = some c → isSpace c = false := by
  intro c hc
  cases q with
  | bare => exact hs c hc
  | double =>
    have e : Quote.double.wrap s = ('\x22' :: s) ++ ['\x22'] := rfl
    rw [e, List.getLast?_concat] at hc
    simp only [Option.some.injEq] at hc
    subst hc; decide
  | single =>
    have e : Quote.single.wrap s = ('\x27' :: s) ++ ['\x27'] := rfl
    rw [e, List.getLast?_concat] at hc
    simp only [Option.some.injEq] at hc
    subst hc; decide

theorem mem_wrap (q : Quote) (s : Str) (c : Char) (hc : c ∈ q.wrap s) :
    c ∈ s ∨ c = '\x22' ∨ c = '\x27' := by
  cases q with
  | bare => exact Or.inl hc
  | double =>
    simp only [Quote.wrap, List.mem_cons, List.mem_append, List.mem_singleton,
      List.not_mem_nil, or_false] at hc
    tauto
  | single =>
    simp only [Quote.wrap, List.mem_cons, List.mem_append, List.mem_singleton,
      List.not_mem_nil, or_false] at hc
    tauto

theorem Trim_wrap (q : Quote) (s : Str) (hs : ∀ c ∈ s, c ≠ '\x22' ∧ c ≠ '\x27') :
    Trim (q.wrap s) quotes = s := by
  have hh : ∀ c, s.head? = some c → decide (c ∈ quotes) = false := by
    intro c hc
    have := hs c (List.mem_of_mem_head? hc)
    simp [quotes, this.1, this.2]
  have hl : ∀ c, s.getLast? = some c → decide (c ∈ quotes) = false := by
    intro c hc
    have := hs c (List.mem_of_mem_getLast? hc)
    simp [quotes, this.1, this.2]
  cases q with
  | bare =>
    have := trim_core (fun c => decide (c ∈ quotes)) [] s [] (by simp) (by simp) hh hl
    simpa [Trim, Quote.wrap] using this
  | double =>
    have := trim_core (fun c => decide (c ∈ quotes)) ['\x22'] s ['\x22'] (by simp [quotes])
      (by simp [quotes]) hh hl
    simpa [Trim, Quote.wrap] using this
  | single =>
    have := trim_core (fun c => decide (c ∈ quotes)) ['\x27'] s ['\x27'] (by simp [quotes])
      (by simp [quotes]) hh hl
    simpa [Trim, Quote.wrap] using this

theorem Args.set_new (m : Args) (k v : Str) (h : k ∉ m.map Prod.fst) :
    m.set k v = m ++ [(k, v)] := by
  induction m with
  | nil => rfl
  | cons p m ih =>
    obtain ⟨k', v'⟩ := p
    have hk : k' ≠ k := fun e => h (by simp [e])
    have := ih (fun hm => h (by simp only [List.map_cons, List.mem_cons]; exact Or.inr hm))
    simp [Args.set, hk, this]

theorem set_fold (ws : List Written) :
    ∀ acc : Args, (ws.map Written.key).Nodup →
      (∀ w ∈ ws, w.key ∉ acc.map Prod.fst) →
      ws.foldl (fun m w => Args.set m w.key w.value) acc =
        acc ++ ws.map (fun w => (w.key, w.value)) := by
  induction ws with
  | nil => intro acc _ _; simp
  | cons w ws ih =>
    intro acc hnd hdisj
    rw [List.map_cons, List.nodup_cons] at hnd
    rw [List.foldl_cons, Args.set_new acc _ _ (hdisj w (List.mem_cons_self _ _)),
      ih _ hnd.2]
    · simp
    · intro w' hw'
      simp only [List.map_append, List.map_cons, List.map_nil, List.mem_append,
        List.mem_singleton, not_or]
      refine ⟨hdisj w' (List.mem_cons_of_mem _ hw'), ?_⟩
      intro e
      exact hnd.1 (by rw [← e]; exact List.mem_map_of_mem _ hw')

theorem parseKV_piece (acc : Args) (lead : Str) (w : Written)
    (hlead : ∀ c ∈ lead, c = ' ')
    (hk : PlainToken w.key) (hcolon : ':' ∉ w.key) (hv : PlainToken w.value) :
    parseKV acc (lead ++ w.text) = acc.set w.key w.value := by
  have hsp : ∀ c ∈ lead, isSpace c = true := by
    intro c hc; rw [hlead c hc]; decide
  have h1 : TrimSpace (lead ++ w.text) ≠ [] :=
    TrimSpace_ne_nil _ ':' (by simp [Written.text]) (by decide)
  have hnc : ':' ∉ lead ++ w.keyQuote.wrap w.key := by
    intro hm
    rcases List.mem_append.1 hm with h | h
    · have := hlead _ h
      exact absurd this (by decide)
    · rcases mem_wrap _ _ _ h with h | h | h
      · exact hcolon h
      · exact absurd h (by decide)
      · exact absurd h (by decide)
  have h2 : SplitN2 ':' (lead ++ w.text) =
      [lead ++ w.keyQuote.wrap w.key, ' ' :: w.valueQuote.wrap w.value] := by
    have := SplitN2_split ':' _ (' ' :: w.valueQuote.wrap w.value) hnc
    simpa [Written.text] using this
  have h3 : TrimSpace (lead ++ w.keyQuote.wrap w.key) = w.keyQuote.wrap w.key :=
    TrimSpace_lead _ _ hsp (wrap_head _ _ hk.2.1) (wrap_last _ _ hk.2.2)
  have h4 : TrimSpace (' ' :: w.valueQuote.wrap w.value) = w.valueQuote.wrap w.value :=
    TrimSpace_lead [' '] _ (by simp; decide) (wrap_head _ _ hv.2.1) (wrap_last _ _ hv.2.2)
  have h5 := Trim_wrap w.keyQuote w.key (fun c hc => ⟨(hk.1 c hc).2.2.2.1, (hk.1 c hc).2.2.2.2.1⟩)
  have h6 := Trim_wrap w.valueQuote w.value
    (fun c hc => ⟨(hv.1 c hc).2.2.2.1, (hv.1 c hc).2.2.2.2.1⟩)
  simp only [parseKV, h1, if_false, h2, h3, h4, h5, h6]

theorem Split_of_not_mem (sep : Char) (a : Str) (h : sep ∉ a) : Split sep a = [a] := by
  induction a with
  | nil => rfl
  | cons c a ih =>
    have hc : c ≠ sep := fun e => h (by rw [e]; exact List.mem_cons_self _ _)
    have := ih (fun hm => h (List.mem_cons_of_mem _ hm))
    simp [Split, hc, this]

theorem Split_append (sep : Char) (a b : Str) (h : sep ∉ a) :
    Split sep (a ++ sep :: b) = a :: Split sep b := by
  induction a with
  | nil => simp [Split]
  | cons c a ih =>
    have hc : c ≠ sep := fun e => h (by rw [e]; exact List.mem_cons_self _ _)
    have := ih (fun hm => h (List.mem_cons_of_mem _ hm))
    simp [Split, hc, this]

theorem comma_not_mem_text (w : Written) (hk : PlainToken w.key) (hv : PlainToken w.value) :
    ',' ∉ w.text := by
  intro hm
  simp only [Written.text, List.mem_append, List.mem_cons] at hm
  rcases hm with h | h | h | h
  · rcases mem_wrap _ _ _ h with h | h | h
    · exact (hk.1 _ h).1 rfl
    · exact absurd h (by decide)
    · exact absurd h (by decide)
  · exact absurd h (by decide)
  · exact absurd h (by decide)
  · rcases mem_wrap _ _ _ h with h | h | h
    · exact (hv.1 _ h).1 rfl
    · exact absurd h (by decide)
    · exact absurd h (by decide)

theorem backtick_not_mem_text (w : Written) (hk : PlainToken w.key)
    (hv : PlainToken w.value) : ∀ c ∈ w.text, c ≠ '\x60' := by
  intro c hm e
  subst e
  simp only [Written.text, List.mem_append, List.mem_cons] at hm
  rcases hm with h | h | h | h
  · rcases mem_wrap _ _ _ h with h | h | h
    · exact (hk.1 _ h).2.2.2.2.2 rfl
    · exact absurd h (by decide)
    · exact absurd h (by decide)
  · exact absurd h (by decide)
  · exact absurd h (by decide)
  · rcases mem_wrap _ _ _ h with h | h | h
    · exact (hv.1 _ h).2.2.2.2.2 rfl
    · exact absurd h (by decide)
    · exact absurd h (by decide)

theorem Split_writeMore (ws : List Written)
    (h : ∀ w ∈ ws, PlainToken w.key ∧ PlainToken w.value) :
    ∀ x : Str, ',' ∉ x →
      Split ',' (x ++ writeMore ws) = x :: ws.map (fun w => ' ' :: w.text) := by
  induction ws with
  | nil => intro x hx; simp [writeMore, Split_of_not_mem ',' x hx]
  | cons w ws ih =>
    intro x hx
    have hw := h w (List.mem_cons_self _ _)
    have hc : ',' ∉ ' ' :: w.text := by
      intro hm
      rcases List.mem_cons.1 hm with e | hm
      · exact absurd e (by decide)
      · exact comma_not_mem_text w hw.1 hw.2 hm
    have e : x ++ writeMore (w :: ws) = x ++ ',' :: ((' ' :: w.text) ++ writeMore ws) := by
      simp [writeMore]
    rw [e, Split_append ',' x _ hx, ih (fun w' hw' => h w' (List.mem_cons_of_mem _ hw')) _ hc]
    simp

theorem foldl_pieces (ws : List Written)
    (h : ∀ w ∈ ws, (PlainToken w.key ∧ ':' ∉ w.key) ∧ PlainToken w.value) :
    ∀ acc : Args, (ws.map (fun w => ' ' :: w.text)).foldl parseKV acc =
      ws.foldl (fun m w => Args.set m w.key w.value) acc := by
  induction ws with
  | nil => intro acc; rfl
  | cons w ws ih =>
    intro acc
    have hw := h w (List.mem_cons_self _ _)
    have := parseKV_piece acc [' '] w (by simp) hw.1.1 hw.1.2 hw.2
    rw [List.map_cons, List.foldl_cons, List.foldl_cons]
    rw [show (' ' :: w.text) = [' '] ++ w.text from rfl, this]
    exact ih (fun w' hw' => h w' (List.mem_cons_of_mem _ hw')) _

theorem backtick_not_mem_writeArgs (ws : List Written)
    (h : ∀ w ∈ ws, PlainToken w.key ∧ PlainToken w.value) : ∀ c ∈ writeArgs ws, c ≠ '\x60' := by
  have hmore : ∀ ws : List Written, (∀ w ∈ ws, PlainToken w.key ∧ PlainToken w.value) →
      ∀ c ∈ writeMore ws, c ≠ '\x60' := by
    intro ws
    induction ws with
    | nil => intro _ c hc; simp [writeMore] at hc
    | cons w ws ih =>
      intro h c hc
      have hw := h w (List.mem_cons_self _ _)
      have e0 : writeMore (w :: ws) = ',' :: ' ' :: w.text ++ writeMore ws := rfl
      rw [e0] at hc
      simp only [List.cons_append, List.mem_cons, List.mem_append] at hc
      rcases hc with e | e | hc | hc
      · rw [e]; decide
      · rw [e]; decide
      · exact backtick_not_mem_text w hw.1 hw.2 c hc
      · exact ih (fun w' hw' => h w' (List.mem_cons_of_mem _ hw')) c hc
  cases ws with
  | nil => intro c hc; simp [writeArgs] at hc
  | cons w ws =>
    intro c hc
    have hw := h w (List.mem_cons_self _ _)
    simp only [writeArgs, List.mem_append] at hc
    rcases hc with hc | hc
    · exact backtick_not_mem_text w hw.1 hw.2 c hc
    · exact hmore ws (fun w' hw' => h w' (List.mem_cons_of_mem _ hw')) c hc

theorem parseArgs_written (ws : List Written)
    (h : ∀ w ∈ ws, (PlainToken w.key ∧ ':' ∉ w.key) ∧ PlainToken w.value)
    (hnd : (ws.map Written.key).Nodup) :
    parseArgs ('{' :: writeArgs ws ++ ['}']) = ws.map (fun w => (w.key, w.value)) := by
  have h1 : TrimSpace ('{' :: writeArgs ws ++ ['}']) = '{' :: writeArgs ws ++ ['}'] := by
    apply TrimSpace_self
    · intro c hc
      simp only [List.cons_append, List.head?_cons, Option.some.injEq] at hc
      subst hc; decide
    · intro c hc
      rw [List.getLast?_concat] at hc
      simp only [Option.some.injEq] at hc
      subst hc; decide
  have h2 : TrimPrefix ('{' :: writeArgs ws ++ ['}']) ['{'] = writeArgs ws ++ ['}'] := by
    simp [TrimPrefix, List.isPrefixOf]
  have h3 : TrimSuffix (writeArgs ws ++ ['}']) ['}'] = writeArgs ws := by
    have : List.isSuffixOf ['}'] (writeArgs ws ++ ['}']) = true :=
      List.isSuffixOf_iff_suffix.2 (List.suffix_append _ _)
    simp [TrimSuffix, this]
  simp only [parseArgs, h1, h2, h3]
  cases ws with
  | nil =>
    simp [writeArgs, Split, parseKV, TrimSpace]
  | cons w ws =>
    have hw := h w (List.mem_cons_self _ _)
    have hrest : ∀ w' ∈ ws, (PlainToken w'.key ∧ ':' ∉ w'.key) ∧ PlainToken w'.value :=
      fun w' hw' => h w' (List.mem_cons_of_mem _ hw')
    have hs := Split_writeMore ws (fun w' hw' => ⟨(hrest w' hw').1.1, (hrest w' hw').2⟩)
      w.text (comma_not_mem_text w hw.1.1 hw.2)
    have hp := parseKV_piece [] [] w (by simp) hw.1.1 hw.1.2 hw.2
    rw [List.nil_append] at hp
    rw [List.map_cons, List.nodup_cons] at hnd
    simp only [writeArgs, hs, List.foldl_cons, hp, foldl_pieces ws hrest]
    rw [set_fold ws _ hnd.2]
    · simp [Args.set]
    · intro w' hw'
      simp only [Args.set, List.map_cons, List.map_nil, List.mem_singleton]
      intro e
      exact hnd.1 (by rw [← e]; exact List.mem_map_of_mem _ hw')

/-- C3 as stated fails for degenerate names. The name made of three backticks is
lower-case and has no whitespace, and it closes the block: the parser returns no action.
With the empty name, the opening brace and the first key become the name. -/
theorem C3_counterexample_fence_in_name :
    ToLower id "```".toList = "```".toList ∧
    (∀ c ∈ "```".toList, isSpace c = false) ∧
    parseAction id (writeBlock "```".toList [⟨.bare, "k".toList, .bare, "v".toList⟩]) =
      ([], []) ∧
    parseAction id (writeBlock [] [⟨.bare, "k".toList, .bare, "v".toList⟩]) =
      ("\x7bk:".toList, []) := by
  refine ⟨by decide, by decide, by decide, by decide⟩

/-- C3, amended: for a name that is not empty, is lower-case, has no whitespace and does
not contain three backticks in a row, and for pairs with distinct keys whose keys and
values have no comma, brace, quote character, backtick or leading or trailing
whitespace, the keys no colon, the block `<name> {k1: v1, k2: v2, ...}` parses to the
name and exactly the written pairs, however each key and each value is quoted. -/
theorem C3_written_arguments_recovered (tbl : Char → Char) (name : Str) (ws : List Written)
    (hne : name ≠ []) (hlow : ToLower tbl name = name)
    (hsp : ∀ c ∈ name, isSpace c = false) (hf : ¬ fence <:+: name)
    (hpairs : ∀ w ∈ ws, (PlainToken w.key ∧ ':' ∉ w.key) ∧ PlainToken w.value)
    (hdist : (ws.map Written.key).Nodup) :
    parseAction tbl (writeBlock name ws) = (name, ws.map (fun w => (w.key, w.value))) := by
  have hre := actionRe_written name (writeArgs ws) hne hsp hf
    (backtick_not_mem_writeArgs ws (fun w hw => ⟨(hpairs w hw).1.1, (hpairs w hw).2⟩))
  have hnh : ∀ c, name.head? = some c → isSpace c = false :=
    fun c hc => hsp c (List.mem_of_mem_head? hc)
  have hnl : ∀ c, name.getLast? = some c → isSpace c = false :=
    fun c hc => hsp c (List.mem_of_mem_getLast? hc)
  have hline : TrimSpace (name ++ ' ' :: '{' :: writeArgs ws ++ ['}']) =
      name ++ ' ' :: '{' :: writeArgs ws ++ ['}'] := by
    apply TrimSpace_self
    · intro c hc
      obtain ⟨a, n, rfl⟩ := List.exists_cons_of_ne_nil hne
      exact hnh c (by simpa using hc)
    · intro c hc
      have e : name ++ ' ' :: '{' :: writeArgs ws ++ ['}'] =
          (name ++ ' ' :: '{' :: writeArgs ws) ++ ['}'] := by simp
      rw [e, List.getLast?_concat] at hc
      simp only [Option.some.injEq] at hc
      subst hc; decide
  have hno : ' ' ∉ name := by
    intro hm
    have := hsp _ hm
    exact absurd this (by decide)
  have hsplit : SplitN2 ' ' (name ++ ' ' :: '{' :: writeArgs ws ++ ['}']) =
      [name, '{' :: writeArgs ws ++ ['}']] := by
    have := SplitN2_split ' ' name ('{' :: writeArgs ws ++ ['}']) hno
    simpa using this
  simp only [parseAction, writeBlock, hre, hline, hsplit, TrimSpace_self name hnh hnl, hlow,
    parseArgs_written ws hpairs hdist]

/-- The two instances of C3 given with the claim. -/
theorem C3_witness :
    parseAction id (fenced "click \x7b\x22selector\x22: \x22#go\x22\x7d".toList) =
      ("click".toList, [("selector".toList, "#go".toList)]) ∧
    parseAction id (fenced "navigate \x7burl: \x22http://x\x22\x7d".toList) =
      ("navigate".toList, [("url".toList, "http://x".toList)]) :=
  ⟨C3_written_arguments_recovered id "click".toList
      [⟨.double, "selector".toList, .double, "#go".toList⟩]
      (by decide) (by decide) (by decide) (by decide)
      (by
        intro w hw
        rw [List.mem_singleton] at hw
        subst hw
        refine ⟨⟨⟨by decide, ?_, ?_⟩, by decide⟩, ⟨by decide, ?_, ?_⟩⟩ <;>
          (intro c hc; simp at hc; subst hc; decide))
      (by decide),
   C3_written_arguments_recovered id "navigate".toList
      [⟨.bare, "url".toList, .double, "http://x".toList⟩]
      (by decide) (by decide) (by decide) (by decide)
      (by
        intro w hw
        rw [List.mem_singleton] at hw
        subst hw
        refine ⟨⟨⟨by decide, ?_, ?_⟩, by decide⟩, ⟨by decide, ?_, ?_⟩⟩ <;>
          (intro c hc; simp at hc; subst hc; decide))
      (by decide)⟩

/-! ## The execution loop: one iteration -/

theorem chatCalls_append (a b : List Event) : chatCalls (a ++ b) = chatCalls a ++ chatCalls b := by
  induction a with
  | nil => rfl
  | cons e a ih => cases e <;> simp [chatCalls, ih]

theorem clockReads_append (a b : List Event) :
    clockReads (a ++ b) = clockReads a ++ clockReads b := by
  induction a with
  | nil => rfl
  | cons e a ih => cases e <;> simp [clockReads, ih]

theorem savedLabels_append (a b : List Event) :
    savedLabels (a ++ b) = savedLabels a ++ savedLabels b := by
  induction a with
  | nil => rfl
  | cons e a ih => cases e <;> simp [savedLabels, ih]

theorem chatCalls_tool (mid : List Event) (h : ∀ e ∈ mid, e.isToolCall = true) :
    chatCalls mid = [] := by
  induction mid with
  | nil => rfl
  | cons e mid ih =>
    have he := h e (List.mem_cons_self _ _)
    have := ih (fun e' he' => h e' (List.mem_cons_of_mem _ he'))
    cases e <;> simp_all [chatCalls, Event.isToolCall]

theorem clockReads_tool (mid : List Event) (h : ∀ e ∈ mid, e.isToolCall = true) :
    clockReads mid = [] := by
  induction mid with
  | nil => rfl
  | cons e mid ih =>
    have he := h e (List.mem_cons_self _ _)
    have := ih (fun e' he' => h e' (List.mem_cons_of_mem _ he'))
    cases e <;> simp_all [clockReads, Event.isToolCall]

theorem savedLabels_tool (mid : List Event) (h : ∀ e ∈ mid, e.isToolCall = true) :
    savedLabels mid = [] := by
  induction mid with
  | nil => rfl
  | cons e mid ih =>
    have he := h e (List.mem_cons_self _ _)
    have := ih (fun e' he' => h e' (List.mem_cons_of_mem _ he'))
    cases e <;> simp_all [savedLabels, Event.isToolCall]

theorem settle_shape (E : Env) (tr : List Event) :
    ∃ obs mid, settle E tr = .observed obs (tr ++ mid) ∧ ∀ e ∈ mid, e.isToolCall = true := by
  refine ⟨E.observe (tr ++ [Event.waitIdle]),
    [Event.waitIdle, Event.observe (E.observe (tr ++ [Event.waitIdle]))], ?_, ?_⟩
  · simp [settle]
  · intro e he
    simp at he
    rcases he with rfl | rfl <;> rfl

theorem dispatch_finish (E : Env) (payload : Args) (tr : List Event) :
    dispatch E "finish".toList payload tr =
      .returned (tr ++ [Event.println ("\n[ОТЧЁТ]\n".toList ++ payload.get "report".toList)]) := by
  simp [dispatch]

theorem tool_one (e : Event) (he : e.isToolCall = true) :
    ∀ e' ∈ [e], e'.isToolCall = true := by
  intro e' h'
  rw [List.mem_singleton] at h'
  rw [h']; exact he

theorem observed_extend (tr : List Event) (pre : List Event) (d : Dispatched)
    (hpre : ∀ e ∈ pre, e.isToolCall = true)
    (h : ∃ obs mid, d = .observed obs ((tr ++ pre) ++ mid) ∧ ∀ e ∈ mid, e.isToolCall = true) :
    ∃ obs mid, d = .observed obs (tr ++ mid) ∧ ∀ e ∈ mid, e.isToolCall = true := by
  obtain ⟨obs, mid, hd, hmid⟩ := h
  refine ⟨obs, pre ++ mid, by rw [hd, List.append_assoc], ?_⟩
  intro e he
  rcases List.mem_append.1 he with h1 | h1
  · exact hpre e h1
  · exact hmid e h1

theorem observed_same (tr : List Event) (obs : Str) :
    ∃ obs' mid, Dispatched.observed obs tr = .observed obs' (tr ++ mid) ∧
      ∀ e ∈ mid, e.isToolCall = true :=
  ⟨obs, [], by simp, by simp⟩

theorem dispatch_navigate_empty (E : Env) (payload : Args) (tr : List Event)
    (h : payload.get "url".toList = []) :
    dispatch E "navigate".toList payload tr = .observed "ERROR: empty url".toList tr := by
  simp_all [dispatch]

theorem dispatch_navigate_fail (E : Env) (payload : Args) (tr : List Event) (m : Str)
    (h : payload.get "url".toList ≠ [])
    (hm : E.goto tr (payload.get "url".toList) = some m) :
    dispatch E "navigate".toList payload tr =
      .observed ("ERROR: ".toList ++ m) (tr ++ [Event.goto (payload.get "url".toList) (some m)]) := by
  simp_all [dispatch]

theorem dispatch_navigate_ok (E : Env) (payload : Args) (tr : List Event)
    (h : payload.get "url".toList ≠ [])
    (hm : E.goto tr (payload.get "url".toList) = none) :
    dispatch E "navigate".toList payload tr =
      settle E (tr ++ [Event.goto (payload.get "url".toList) none]) := by
  simp_all [dispatch]

theorem dispatch_click_empty (E : Env) (payload : Args) (tr : List Event)
    (h : payload.get "selector".toList = []) :
    dispatch E "click".toList payload tr = .observed "ERROR: empty selector".toList tr := by
  simp_all [dispatch]

theorem dispatch_click_fail (E : Env) (payload : Args) (tr : List Event) (m : Str)
    (h : payload.get "selector".toList ≠ [])
    (hm : E.click tr (payload.get "selector".toList) = some m) :
    dispatch E "click".toList payload tr =
      .observed ("ERROR: ".toList ++ m)
        (tr ++ [Event.click (payload.get "selector".toList) (some m)]) := by
  simp_all [dispatch]

theorem dispatch_click_ok (E : Env) (payload : Args) (tr : List Event)
    (h : payload.get "selector".toList ≠ [])
    (hm : E.click tr (payload.get "selector".toList) = none) :
    dispatch E "click".toList payload tr =
      settle E (tr ++ [Event.click (payload.get "selector".toList) none]) := by
  simp_all [dispatch]

theorem dispatch_type_empty (E : Env) (payload : Args) (tr : List Event)
    (h : payload.get "selector".toList = []) :
    dispatch E "type".toList payload tr = .observed "ERROR: empty selector".toList tr := by
  simp_all [dispatch]

theorem dispatch_type_fail (E : Env) (payload : Args) (tr : List Event) (m : Str)
    (h : payload.get "selector".toList ≠ [])
    (hm : E.fill tr (payload.get "selector".toList) (payload.get "text".toList) = some m) :
    dispatch E "type".toList payload tr =
      .observed ("ERROR: ".toList ++ m)
        (tr ++ [Event.fill (payload.get "selector".toList) (payload.get "text".toList)
          (some m)]) := by
  simp_all [dispatch]

theorem dispatch_type_submit (E : Env) (payload : Args) (tr : List Event)
    (h : payload.get "selector".toList ≠ [])
    (hm : E.fill tr (payload.get "selector".toList) (payload.get "text".toList) = none)
    (hs : EqualFoldTrue (payload.get "submit".toList) = true) :
    dispatch E "type".toList payload tr =
      settle E (tr ++ [Event.fill (payload.get "selector".toList) (payload.get "text".toList)
          none] ++ [Event.press "Enter".toList (E.press (tr ++
            [Event.fill (payload.get "selector".toList) (payload.get "text".toList) none])
            "Enter".toList)]) := by
  simp_all [dispatch]

theorem dispatch_type_plain (E : Env) (payload : Args) (tr : List Event)
    (h : payload.get "selector".toList ≠ [])
    (hm : E.fill tr (payload.get "selector".toList) (payload.get "text".toList) = none)
    (hs : EqualFoldTrue (payload.get "submit".toList) = false) :
    dispatch E "type".toList payload tr =
      settle E (tr ++ [Event.fill (payload.get "selector".toList) (payload.get "text".toList)
          none]) := by
  simp_all [dispatch]

theorem dispatch_observe (E : Env) (payload : Args) (tr : List Event) :
    dispatch E "observe".toList payload tr =
      .observed (E.observe tr) (tr ++ [Event.observe (E.observe tr)]) := by
  simp [dispatch]

theorem dispatch_unknown (E : Env) (action : Str) (payload : Args) (tr : List Event)
    (h1 : action ≠ "navigate".toList) (h2 : action ≠ "click".toList)
    (h3 : action ≠ "type".toList) (h4 : action ≠ "observe".toList)
    (h5 : action ≠ "finish".toList) :
    dispatch E action payload tr = .observed "ERROR: unknown action".toList tr := by
  simp_all [dispatch]

theorem dispatch_observed (E : Env) (action : Str) (payload : Args) (tr : List Event)
    (h : action ≠ "finish".toList) :
    ∃ obs mid, dispatch E action payload tr = .observed obs (tr ++ mid) ∧
      ∀ e ∈ mid, e.isToolCall = true := by
  by_cases h1 : action = "navigate".toList
  · subst h1
    by_cases hu : payload.get "url".toList = []
    · rw [dispatch_navigate_empty E payload tr hu]; exact observed_same _ _
    · cases hg : E.goto tr (payload.get "url".toList) with
      | some m =>
        rw [dispatch_navigate_fail E payload tr m hu hg]
        exact ⟨_, _, rfl, tool_one _ (by rfl)⟩
      | none =>
        rw [dispatch_navigate_ok E payload tr hu hg]
        exact observed_extend tr _ _ (tool_one _ (by rfl)) (settle_shape E _)
  by_cases h2 : action = "click".toList
  · subst h2
    by_cases hu : payload.get "selector".toList = []
    · rw [dispatch_click_empty E payload tr hu]; exact observed_same _ _
    · cases hg : E.click tr (payload.get "selector".toList) with
      | some m =>
        rw [dispatch_click_fail E payload tr m hu hg]
        exact ⟨_, _, rfl, tool_one _ (by rfl)⟩
      | none =>
        rw [dispatch_click_ok E payload tr hu hg]
        exact observed_extend tr _ _ (tool_one _ (by rfl)) (settle_shape E _)
  by_cases h3 : action = "type".toList
  · subst h3
    by_cases hu : payload.get "selector".toList = []
    · rw [dispatch_type_empty E payload tr hu]; exact observed_same _ _
    · cases hg : E.fill tr (payload.get "selector".toList) (payload.get "text".toList) with
      | some m =>
        rw [dispatch_type_fail E payload tr m hu hg]
        exact ⟨_, _, rfl, tool_one _ (by rfl)⟩
      | none =>
        cases hs : EqualFoldTrue (payload.get "submit".toList) with
        | true =>
          rw [dispatch_type_submit E payload tr hu hg hs]
          exact observed_extend tr _ _ (tool_one _ (by rfl))
            (observed_extend _ _ _ (tool_one _ (by rfl)) (settle_shape E _))
        | false =>
          rw [dispatch_type_plain E payload tr hu hg hs]
          exact observed_extend tr _ _ (tool_one _ (by rfl)) (settle_shape E _)
  by_cases h4 : action = "observe".toList
  · subst h4
    rw [dispatch_observe]
    exact ⟨_, _, rfl, tool_one _ (by rfl)⟩
  · rw [dispatch_unknown E action payload tr h1 h2 h3 h4 h]
    exact observed_same _ _

theorem iteration_timeout (E : Env) (D : Int) (s : LoopState) (h : ¬ E.now s.trace < D) :
    iteration E D s =
      .inl (.timeout, ⟨s.msgs, s.step, s.trace ++ [Event.now (E.now s.trace)]⟩) := by
  simp [iteration, h]

theorem iteration_chatError (E : Env) (D : Int) (s : LoopState) (err : Str)
    (h : E.now s.trace < D)
    (hc : E.chat (s.trace ++ [Event.now (E.now s.trace)]) sys s.msgs = .error err) :
    iteration E D s =
      .inl (.chatError err, ⟨s.msgs, s.step + 1,
        s.trace ++ [Event.now (E.now s.trace)] ++ [Event.chat sys s.msgs (.error err)]⟩) := by
  simp [iteration, h, hc]

theorem iteration_noAction (E : Env) (D : Int) (s : LoopState) (out : Str)
    (h : E.now s.trace < D)
    (hc : E.chat (s.trace ++ [Event.now (E.now s.trace)]) sys s.msgs = .ok out)
    (ha : (parseAction E.lowerTable out).1 = []) :
    iteration E D s =
      .inr ⟨s.msgs ++ [⟨"assistant".toList, out⟩, ⟨"user".toList, repairPrompt⟩], s.step + 1,
        s.trace ++ [Event.now (E.now s.trace)] ++ [Event.chat sys s.msgs (.ok out)]⟩ := by
  simp [iteration, h, hc, ha]

theorem iteration_finish (E : Env) (D : Int) (s : LoopState) (out : Str)
    (h : E.now s.trace < D)
    (hc : E.chat (s.trace ++ [Event.now (E.now s.trace)]) sys s.msgs = .ok out)
    (ha : (parseAction E.lowerTable out).1 = "finish".toList) :
    iteration E D s =
      .inl (.finished, ⟨s.msgs, s.step + 1,
        s.trace ++ [Event.now (E.now s.trace)] ++ [Event.chat sys s.msgs (.ok out)] ++
          [Event.println ("\n[ОТЧЁТ]\n".toList ++
            (parseAction E.lowerTable out).2.get "report".toList)]⟩) := by
  have hd := dispatch_finish E (parseAction E.lowerTable out).2
    (s.trace ++ [Event.now (E.now s.trace)] ++ [Event.chat sys s.msgs (.ok out)])
  rw [← ha] at hd
  have hne : (parseAction E.lowerTable out).1 ≠ [] := by rw [ha]; decide
  simp only [iteration, h, hc, if_true, hne, if_false, hd]

theorem iteration_observed (E : Env) (D : Int) (s : LoopState) (out obs : Str)
    (tr' : List Event)
    (h : E.now s.trace < D)
    (hc : E.chat (s.trace ++ [Event.now (E.now s.trace)]) sys s.msgs = .ok out)
    (ha : (parseAction E.lowerTable out).1 ≠ [])
    (hd : dispatch E (parseAction E.lowerTable out).1 (parseAction E.lowerTable out).2
      (s.trace ++ [Event.now (E.now s.trace)] ++ [Event.chat sys s.msgs (.ok out)]) =
        .observed obs tr') :
    iteration E D s =
      .inr ⟨s.msgs ++ [⟨"assistant".toList, out⟩,
          ⟨"user".toList, "Наблюдение:\n".toList ++ E.summarize obs⟩], s.step + 1,
        tr' ++ [Event.saveArtifacts
          (artifactLabel (s.step + 1) (parseAction E.lowerTable out).1)]⟩ := by
  simp only [iteration, h, hc, if_true, ha, if_false, hd]

/-- What one pass through the loop body does when the loop goes on. -/
theorem iteration_inr_spec (E : Env) (D : Int) (s s' : LoopState)
    (h : iteration E D s = .inr s') :
    ∃ out rest, E.now s.trace < D ∧
      E.chat (s.trace ++ [Event.now (E.now s.trace)]) sys s.msgs = .ok out ∧
      (parseAction E.lowerTable out).1 ≠ "finish".toList ∧
      s'.trace = s.trace ++ [Event.now (E.now s.trace)] ++
        [Event.chat sys s.msgs (.ok out)] ++ rest ∧
      (((parseAction E.lowerTable out).1 = [] ∧ rest = []) ∨
       ((parseAction E.lowerTable out).1 ≠ [] ∧ ∃ mid, (∀ e ∈ mid, e.isToolCall = true) ∧
          rest = mid ++ [Event.saveArtifacts
            (artifactLabel (s.step + 1) (parseAction E.lowerTable out).1)])) ∧
      s'.step = s.step + 1 ∧
      ∃ u, s'.msgs = s.msgs ++ [⟨"assistant".toList, out⟩, ⟨"user".toList, u⟩] := by
  by_cases ht : E.now s.trace < D
  swap
  · rw [iteration_timeout E D s ht] at h; cases h
  cases hc : E.chat (s.trace ++ [Event.now (E.now s.trace)]) sys s.msgs with
  | error err => rw [iteration_chatError E D s err ht hc] at h; cases h
  | ok out =>
    by_cases ha : (parseAction E.lowerTable out).1 = []
    · rw [iteration_noAction E D s out ht hc ha] at h
      cases h
      refine ⟨out, [], ht, rfl, ?_, by simp, Or.inl ⟨ha, rfl⟩, rfl, _, rfl⟩
      rw [ha]; decide
    · by_cases hf : (parseAction E.lowerTable out).1 = "finish".toList
      · rw [iteration_finish E D s out ht hc hf] at h; cases h
      · obtain ⟨obs, mid, hd, hmid⟩ := dispatch_observed E (parseAction E.lowerTable out).1
          (parseAction E.lowerTable out).2
          (s.trace ++ [Event.now (E.now s.trace)] ++ [Event.chat sys s.msgs (.ok out)]) hf
        rw [iteration_observed E D s out obs _ ht hc ha hd] at h
        cases h
        exact ⟨out, mid ++ [Event.saveArtifacts
          (artifactLabel (s.step + 1) (parseAction E.lowerTable out).1)],
          ht, rfl, hf, by simp, Or.inr ⟨ha, mid, hmid, rfl⟩, rfl, _, rfl⟩

/-- The `Chat` calls and clock readings one continuing pass adds to the trace. -/
theorem iteration_inr_calls (E : Env) (D : Int) (s s' : LoopState)
    (h : iteration E D s = .inr s') :
    ∃ out, E.now s.trace < D ∧ continues E (.ok out) ∧
      chatCalls s'.trace = chatCalls s.trace ++ [(s.msgs, .ok out)] ∧
      clockReads s'.trace = clockReads s.trace ++ [E.now s.trace] ∧
      s'.step = s.step + 1 ∧
      ∃ u, s'.msgs = s.msgs ++ [⟨"assistant".toList, out⟩, ⟨"user".toList, u⟩] := by
  obtain ⟨out, rest, ht, _, hf, htr, hrest, hstep, hmsgs⟩ := iteration_inr_spec E D s s' h
  refine ⟨out, ht, ⟨out, rfl, hf⟩, ?_, ?_, hstep, hmsgs⟩
  · rw [htr]
    rcases hrest with ⟨_, rfl⟩ | ⟨_, mid, hmid, rfl⟩
    · simp [chatCalls_append, chatCalls]
    · simp [chatCalls_append, chatCalls, chatCalls_tool mid hmid]
  · rw [htr]
    rcases hrest with ⟨_, rfl⟩ | ⟨_, mid, hmid, rfl⟩
    · simp [clockReads_append, clockReads]
    · simp [clockReads_append, clockReads, clockReads_tool mid hmid]

/-- What one pass through the loop does when `Run` returns in it. -/
theorem iteration_inl_spec (E : Env) (D : Int) (s s' : LoopState) (o : Outcome)
    (h : iteration E D s = .inl (o, s')) :
    s'.msgs = s.msgs ∧
    ((o = .timeout ∧ ¬ E.now s.trace < D ∧ s'.step = s.step ∧
        s'.trace = s.trace ++ [Event.now (E.now s.trace)]) ∨
     (∃ err, o = .chatError err ∧ E.now s.trace < D ∧ s'.step = s.step + 1 ∧
        s'.trace = s.trace ++ [Event.now (E.now s.trace)] ++
          [Event.chat sys s.msgs (.error err)]) ∨
     (∃ out, o = .finished ∧ E.now s.trace < D ∧ s'.step = s.step + 1 ∧
        (parseAction E.lowerTable out).1 = "finish".toList ∧
        s'.trace = s.trace ++ [Event.now (E.now s.trace)] ++
          [Event.chat sys s.msgs (.ok out)] ++
          [Event.println ("\n[ОТЧЁТ]\n".toList ++
            (parseAction E.lowerTable out).2.get "report".toList)])) := by
  by_cases ht : E.now s.trace < D
  swap
  · rw [iteration_timeout E D s ht] at h
    cases h
    exact ⟨rfl, Or.inl ⟨rfl, ht, rfl, rfl⟩⟩
  cases hc : E.chat (s.trace ++ [Event.now (E.now s.trace)]) sys s.msgs with
  | error err =>
    rw [iteration_chatError E D s err ht hc] at h
    cases h
    exact ⟨rfl, Or.inr (Or.inl ⟨err, rfl, ht, rfl, rfl⟩)⟩
  | ok out =>
    by_cases ha : (parseAction E.lowerTable out).1 = []
    · rw [iteration_noAction E D s out ht hc ha] at h; cases h
    · by_cases hf : (parseAction E.lowerTable out).1 = "finish".toList
      · rw [iteration_finish E D s out ht hc hf] at h
        cases h
        exact ⟨rfl, Or.inr (Or.inr ⟨out, rfl, ht, rfl, hf, rfl⟩)⟩
      · obtain ⟨obs, mid, hd, _⟩ := dispatch_observed E (parseAction E.lowerTable out).1
          (parseAction E.lowerTable out).2
          (s.trace ++ [Event.now (E.now s.trace)] ++ [Event.chat sys s.msgs (.ok out)]) hf
        rw [iteration_observed E D s out obs _ ht hc ha hd] at h
        cases h

/-- The `Chat` calls and clock readings of the pass in which `Run` returns. -/
theorem iteration_inl_calls (E : Env) (D : Int) (s s' : LoopState) (o : Outcome)
    (h : iteration E D s = .inl (o, s')) :
    s'.msgs = s.msgs ∧
    ((o = .timeout ∧ ¬ E.now s.trace < D ∧ s'.step = s.step ∧
        (∃ tr, s'.trace = tr ++ [Event.now (E.now s.trace)]) ∧
        chatCalls s'.trace = chatCalls s.trace ∧
        clockReads s'.trace = clockReads s.trace ++ [E.now s.trace]) ∨
     (∃ err, o = .chatError err ∧ E.now s.trace < D ∧ s'.step = s.step + 1 ∧
        chatCalls s'.trace = chatCalls s.trace ++ [(s.msgs, .error err)] ∧
        clockReads s'.trace = clockReads s.trace ++ [E.now s.trace]) ∨
     (∃ out, o = .finished ∧ E.now s.trace < D ∧ s'.step = s.step + 1 ∧
        (parseAction E.lowerTable out).1 = "finish".toList ∧
        chatCalls s'.trace = chatCalls s.trace ++ [(s.msgs, .ok out)] ∧
        clockReads s'.trace = clockReads s.trace ++ [E.now s.trace])) := by
  obtain ⟨hm, h1 | h2 | h3⟩ := iteration_inl_spec E D s s' o h
  · obtain ⟨ho, ht, hs, htr⟩ := h1
    refine ⟨hm, Or.inl ⟨ho, ht, hs, ⟨_, htr⟩, ?_, ?_⟩⟩
    · rw [htr]; simp [chatCalls_append, chatCalls]
    · rw [htr]; simp [clockReads_append, clockReads]
  · obtain ⟨err, ho, ht, hs, htr⟩ := h2
    refine ⟨hm, Or.inr (Or.inl ⟨err, ho, ht, hs, ?_, ?_⟩)⟩
    · rw [htr]; simp [chatCalls_append, chatCalls]
    · rw [htr]; simp [clockReads_append, clockReads]
  · obtain ⟨out, ho, ht, hs, hf, htr⟩ := h3
    refine ⟨hm, Or.inr (Or.inr ⟨out, ho, ht, hs, hf, ?_, ?_⟩)⟩
    · rw [htr]; simp [chatCalls_append, chatCalls]
    · rw [htr]; simp [clockReads_append, clockReads]

/-- An induction principle for the loop: a property of the loop variables kept by every
continuing pass gives a property of the result. -/
theorem runLoop_induct (E : Env) (D : Int) (P : LoopState → Prop)
    (Q : Option Outcome → LoopState → Prop)
    (hstep : ∀ s s', P s → iteration E D s = .inr s' → P s')
    (hret : ∀ s o s', P s → iteration E D s = .inl (o, s') → Q (some o) s')
    (hnone : ∀ s, P s → Q none s) :
    ∀ (fuel : Nat) (s : LoopState), P s →
      Q (runLoop E D fuel s).1 (runLoop E D fuel s).2 := by
  intro fuel
  induction fuel with
  | zero => intro s hs; exact hnone s hs
  | succ n ih =>
    intro s hs
    cases hit : iteration E D s with
    | inl r =>
      obtain ⟨o, s'⟩ := r
      have := hret s o s' hs hit
      simpa [runLoop, hit] using this
    | inr s' =>
      have := ih s' (hstep s s' hs hit)
      simpa [runLoop, hit] using this

theorem runLoop_count (E : Env) (D : Int) :
    ∀ (fuel : Nat) (s : LoopState), (runLoop E D fuel s).1 = none →
      (chatCalls (runLoop E D fuel s).2.trace).length = (chatCalls s.trace).length + fuel := by
  intro fuel
  induction fuel with
  | zero => intro s _; simp [runLoop]
  | succ n ih =>
    intro s h
    cases hit : iteration E D s with
    | inl r =>
      obtain ⟨o, s'⟩ := r
      simp [runLoop, hit] at h
    | inr s' =>
      simp only [runLoop, hit] at h ⊢
      rw [ih s' h]
      obtain ⟨out, _, _, hc, _⟩ := iteration_inr_calls E D s s' hit
      rw [hc]; simp; omega

theorem runLoop_stable (E : Env) (D : Int) :
    ∀ (fuel k : Nat) (s : LoopState), (runLoop E D fuel s).1 ≠ none →
      runLoop E D (fuel + k) s = runLoop E D fuel s := by
  intro fuel
  induction fuel with
  | zero => intro k s h; simp [runLoop] at h
  | succ n ih =>
    intro k s h
    have e : n + 1 + k = (n + k) + 1 := by omega
    rw [e]
    cases hit : iteration E D s with
    | inl r =>
      obtain ⟨o, s'⟩ := r
      simp [runLoop, hit]
    | inr s' =>
      simp only [runLoop, hit] at h ⊢
      exact ih k s' h

theorem trace_grows (E : Env) (D : Int) (s s' : LoopState) (h : iteration E D s = .inr s') :
    s.trace.length < s'.trace.length := by
  obtain ⟨out, rest, _, _, _, htr, _⟩ := iteration_inr_spec E D s s' h
  rw [htr]; simp

theorem runLoop_returns (E : Env) (D : Int) (N : Nat)
    (hN : ∀ tr : List Event, N ≤ tr.length → D ≤ E.now tr) :
    ∀ (fuel : Nat) (s : LoopState), N ≤ s.trace.length + fuel →
      (runLoop E D (fuel + 1) s).1 ≠ none := by
  intro fuel
  induction fuel with
  | zero =>
    intro s h
    have : ¬ E.now s.trace < D := not_lt.2 (hN _ (by omega))
    simp [runLoop, iteration_timeout E D s this]
  | succ n ih =>
    intro s h
    cases hit : iteration E D s with
    | inl r =>
      obtain ⟨o, s'⟩ := r
      simp [runLoop, hit]
    | inr s' =>
      have hg := trace_grows E D s s' hit
      have := ih s' (by omega)
      rw [runLoop, hit]
      exact this

/-- C1: a model turn that parses to `navigate` with a missing or empty `url`, or to `click`
or `type` with a missing or empty `selector`, makes the `switch` statement set an
observation that begins with `ERROR:` without any call (the trace is unchanged); the
iteration goes on, feeds that observation back as a `user` message, and the calls it
adds to the trace contain no browser navigate, click, fill, key-press or wait-idle
call. -/
theorem C1_missing_argument_short_circuits (E : Env) (D : Int) (s : LoopState) (out : Str)
    (ht : E.now s.trace < D)
    (hc : E.chat (s.trace ++ [Event.now (E.now s.trace)]) sys s.msgs = .ok out)
    (hmiss :
      ((parseAction E.lowerTable out).1 = "navigate".toList ∧
        (parseAction E.lowerTable out).2.get "url".toList = []) ∨
      ((parseAction E.lowerTable out).1 = "click".toList ∧
        (parseAction E.lowerTable out).2.get "selector".toList = []) ∨
      ((parseAction E.lowerTable out).1 = "type".toList ∧
        (parseAction E.lowerTable out).2.get "selector".toList = [])) :
    ∃ (observation : Str) (s' : LoopState),
      dispatch E (parseAction E.lowerTable out).1 (parseAction E.lowerTable out).2
          (s.trace ++ [Event.now (E.now s.trace)] ++ [Event.chat sys s.msgs (.ok out)]) =
        .observed observation
          (s.trace ++ [Event.now (E.now s.trace)] ++ [Event.chat sys s.msgs (.ok out)]) ∧
      "ERROR:".toList <+: observation ∧
      iteration E D s = .inr s' ∧
      s'.msgs = s.msgs ++ [⟨"assistant".toList, out⟩,
        ⟨"user".toList, "Наблюдение:\n".toList ++ E.summarize observation⟩] ∧
      ∃ new, s'.trace = s.trace ++ new ∧ ∀ e ∈ new, e.isBrowserCall = false := by
  have key : ∀ obs : Str, "ERROR:".toList <+: obs →
      (parseAction E.lowerTable out).1 ≠ [] →
      dispatch E (parseAction E.lowerTable out).1 (parseAction E.lowerTable out).2
          (s.trace ++ [Event.now (E.now s.trace)] ++ [Event.chat sys s.msgs (.ok out)]) =
        .observed obs
          (s.trace ++ [Event.now (E.now s.trace)] ++ [Event.chat sys s.msgs (.ok out)]) →
      ∃ (observation : Str) (s' : LoopState),
      dispatch E (parseAction E.lowerTable out).1 (parseAction E.lowerTable out).2
          (s.trace ++ [Event.now (E.now s.trace)] ++ [Event.chat sys s.msgs (.ok out)]) =
        .observed observation
          (s.trace ++ [Event.now (E.now s.trace)] ++ [Event.chat sys s.msgs (.ok out)]) ∧
      "ERROR:".toList <+: observation ∧
      iteration E D s = .inr s' ∧
      s'.msgs = s.msgs ++ [⟨"assistant".toList, out⟩,
        ⟨"user".toList, "Наблюдение:\n".toList ++ E.summarize observation⟩] ∧
      ∃ new, s'.trace = s.trace ++ new ∧ ∀ e ∈ new, e.isBrowserCall = false := by
    intro obs hpre hne hd
    refine ⟨obs, _, hd, hpre, iteration_observed E D s out obs _ ht hc hne hd, rfl,
      [Event.now (E.now s.trace), Event.chat sys s.msgs (.ok out),
        Event.saveArtifacts (artifactLabel (s.step + 1) (parseAction E.lowerTable out).1)],
      by simp, ?_⟩
    intro e he
    simp only [List.mem_cons, List.mem_singleton, List.not_mem_nil, or_false] at he
    rcases he with rfl | rfl | rfl <;> rfl
  rcases hmiss with ⟨ha, hu⟩ | ⟨ha, hu⟩ | ⟨ha, hu⟩
  · refine key "ERROR: empty url".toList (by decide) (by rw [ha]; decide) ?_
    rw [ha]; exact dispatch_navigate_empty E _ _ hu
  · refine key "ERROR: empty selector".toList (by decide) (by rw [ha]; decide) ?_
    rw [ha]; exact dispatch_click_empty E _ _ hu
  · refine key "ERROR: empty selector".toList (by decide) (by rw [ha]; decide) ?_
    rw [ha]; exact dispatch_type_empty E _ _ hu

/-- A run of C1: the reply is a fenced `click {}`. -/
theorem C1_witness :
    ∃ (observation : Str) (s' : LoopState),
      dispatch (scriptEnv [fenced "click \x7b\x7d".toList])
          (parseAction id (fenced "click \x7b\x7d".toList)).1
          (parseAction id (fenced "click \x7b\x7d".toList)).2
          ([] ++ [Event.now 0] ++ [Event.chat sys [] (.ok (fenced "click \x7b\x7d".toList))]) =
        .observed observation
          ([] ++ [Event.now 0] ++ [Event.chat sys [] (.ok (fenced "click \x7b\x7d".toList))]) ∧
      "ERROR:".toList <+: observation ∧
      iteration (scriptEnv [fenced "click \x7b\x7d".toList]) 5 ⟨[], 0, []⟩ = .inr s' ∧
      s'.msgs = [] ++ [⟨"assistant".toList, fenced "click \x7b\x7d".toList⟩,
        ⟨"user".toList, "Наблюдение:\n".toList ++ observation⟩] ∧
      ∃ new, s'.trace = [] ++ new ∧ ∀ e ∈ new, e.isBrowserCall = false :=
  C1_missing_argument_short_circuits (scriptEnv [fenced "click \x7b\x7d".toList]) 5 ⟨[], 0, []⟩
    (fenced "click \x7b\x7d".toList) (by decide) (by rfl) (Or.inr (Or.inl ⟨by decide, by decide⟩))

/-- C7: with a time budget that is not positive and a clock that does not run backwards,
`Run` returns the timeout error at the first evaluation of the loop condition and has
made no `Chat` call. -/
theorem C7_nonpositive_budget_times_out (E : Env) (goal : Str) (maxTime : Int) (fuel : Nat)
    (hmax : maxTime ≤ 0)
    (hclock : ∀ (tr : List Event) (e : Event), E.now tr ≤ E.now (tr ++ [e])) :
    (Run E goal maxTime (fuel + 1)).1 = some .timeout ∧
    ((Run E goal maxTime (fuel + 1)).1.map Outcome.error) = some (some "timeout".toList) ∧
    chatCalls (Run E goal maxTime (fuel + 1)).2.trace = [] := by
  have hlate : ¬ E.now (Run.init E goal).trace < Run.deadline E maxTime := by
    have := hclock [Event.observe (E.observe [])]
      (Event.now (E.now [Event.observe (E.observe [])]))
    simp only [Run.init, Run.deadline, not_lt]
    omega
  have hrun : Run E goal maxTime (fuel + 1) =
      (some .timeout, ⟨(Run.init E goal).msgs, (Run.init E goal).step,
        (Run.init E goal).trace ++ [Event.now (E.now (Run.init E goal).trace)]⟩) := by
    simp only [Run, runLoop, iteration_timeout E _ _ hlate]
  rw [hrun]
  refine ⟨rfl, rfl, ?_⟩
  simp [Run.init, chatCalls]

/-- A run of C7: a zero budget on a clock that counts the calls. -/
theorem C7_witness :
    (Run (scriptEnv []) "g".toList 0 1).1 = some .timeout ∧
    ((Run (scriptEnv []) "g".toList 0 1).1.map Outcome.error) = some (some "timeout".toList) ∧
    chatCalls (Run (scriptEnv []) "g".toList 0 1).2.trace = [] :=
  C7_nonpositive_budget_times_out (scriptEnv []) "g".toList 0 0 (by decide)
    (by intro tr e; simp [scriptEnv])

/-- C9 as stated fails for the submit key press: with `submit` true, a successful fill
and a key press that fails with `boom`, the observation is the page, not `ERROR: boom`. -/
theorem C9_counterexample_submit_failure :
    (scriptEnv []).press [Event.fill "#q".toList [] none] "Enter".toList = some "boom".toList ∧
    dispatch (scriptEnv []) "type".toList
        [("selector".toList, "#q".toList), ("submit".toList, "true".toList)] [] =
      .observed "page".toList
        [Event.fill "#q".toList [] none, Event.press "Enter".toList (some "boom".toList),
          Event.waitIdle, Event.observe "page".toList] ∧
    "page".toList ≠ "ERROR: ".toList ++ "boom".toList :=
  ⟨rfl, rfl, by decide⟩

/-- C9, amended: when the required arguments are present and the navigate, click or fill
call fails with message `m`, the observation is exactly `ERROR: ` followed by `m`, and
nothing is called after the failed call. The result of the submit key press is dropped:
after a successful fill with `submit` true the observation is the fresh page observation
taken after the wait, whatever the key press returned. -/
theorem C9_browser_failure_observation (E : Env) (payload : Args) (tr : List Event)
    (m : Str) :
    (payload.get "url".toList ≠ [] → E.goto tr (payload.get "url".toList) = some m →
      dispatch E "navigate".toList payload tr =
        .observed ("ERROR: ".toList ++ m)
          (tr ++ [Event.goto (payload.get "url".toList) (some m)])) ∧
    (payload.get "selector".toList ≠ [] →
      E.click tr (payload.get "selector".toList) = some m →
      dispatch E "click".toList payload tr =
        .observed ("ERROR: ".toList ++ m)
          (tr ++ [Event.click (payload.get "selector".toList) (some m)])) ∧
    (payload.get "selector".toList ≠ [] →
      E.fill tr (payload.get "selector".toList) (payload.get "text".toList) = some m →
      dispatch E "type".toList payload tr =
        .observed ("ERROR: ".toList ++ m)
          (tr ++ [Event.fill (payload.get "selector".toList) (payload.get "text".toList)
            (some m)])) ∧
    (payload.get "selector".toList ≠ [] →
      E.fill tr (payload.get "selector".toList) (payload.get "text".toList) = none →
      EqualFoldTrue (payload.get "submit".toList) = true →
      ∀ tr₁, tr₁ = tr ++ [Event.fill (payload.get "selector".toList)
          (payload.get "text".toList) none] →
      ∀ tr₂, tr₂ = tr₁ ++ [Event.press "Enter".toList (E.press tr₁ "Enter".toList)] ++
          [Event.waitIdle] →
      dispatch E "type".toList payload tr =
        .observed (E.observe tr₂) (tr₂ ++ [Event.observe (E.observe tr₂)])) := by
  refine ⟨dispatch_navigate_fail E payload tr m, dispatch_click_fail E payload tr m,
    dispatch_type_fail E payload tr m, ?_⟩
  intro h hf hs tr₁ h₁ tr₂ h₂
  rw [dispatch_type_submit E payload tr h hf hs, h₂, h₁]
  rfl

/-- A run of the amended C9: a click that fails with `gone`. -/
theorem C9_witness :
    dispatch clickFailEnv "click".toList
        [("selector".toList, "#go".toList)] [] =
      .observed ("ERROR: ".toList ++ "gone".toList)
        ([] ++ [Event.click "#go".toList (some "gone".toList)]) :=
  (C9_browser_failure_observation clickFailEnv
    [("selector".toList, "#go".toList)] [] "gone".toList).2.1 (by decide) rfl

/-! ## The execution loop: whole runs -/

theorem tail_append_singleton {α : Type} (l : List α) (x : α) (h : l ≠ []) :
    (l ++ [x]).tail = l.tail ++ [x] := by
  cases l with
  | nil => exact absurd rfl h
  | cons a l => rfl

theorem forall_mem_append_singleton {α : Type} (P : α → Prop) (l : List α) (x : α)
    (hl : ∀ a ∈ l, P a) (hx : P x) : ∀ a ∈ l ++ [x], P a := by
  intro a ha
  rcases List.mem_append.1 ha with h | h
  · exact hl a h
  · rw [List.mem_singleton] at h; rw [h]; exact hx

/-- The ways the loop ends, read off the trace. -/
theorem runLoop_outcome (E : Env) (D : Int) (fuel : Nat) (s : LoopState)
    (hchat : ∀ r ∈ chatResults s.trace, continues E r)
    (hclock : ∀ t ∈ (clockReads s.trace).tail, t < D)
    (hne : clockReads s.trace ≠ []) :
    (∀ err, (runLoop E D fuel s).1 = some (.chatError err) →
      ∃ init, chatResults (runLoop E D fuel s).2.trace = init ++ [.error err] ∧
        (∀ r ∈ init, continues E r) ∧
        ∀ t ∈ (clockReads (runLoop E D fuel s).2.trace).tail, t < D) ∧
    ((runLoop E D fuel s).1 = some .finished →
      ∃ init out, chatResults (runLoop E D fuel s).2.trace = init ++ [.ok out] ∧
        (parseAction E.lowerTable out).1 = "finish".toList ∧
        (∀ r ∈ init, continues E r) ∧
        ∀ t ∈ (clockReads (runLoop E D fuel s).2.trace).tail, t < D) ∧
    ((runLoop E D fuel s).1 = some .timeout →
      (∀ r ∈ chatResults (runLoop E D fuel s).2.trace, continues E r) ∧
      ∃ tr init t, (runLoop E D fuel s).2.trace = tr ++ [Event.now t] ∧
        (clockReads (runLoop E D fuel s).2.trace).tail = init ++ [t] ∧
        (∀ t' ∈ init, t' < D) ∧ ¬ t < D) ∧
    ((runLoop E D fuel s).1 = none →
      (∀ r ∈ chatResults (runLoop E D fuel s).2.trace, continues E r) ∧
      ∀ t ∈ (clockReads (runLoop E D fuel s).2.trace).tail, t < D) := by
  refine runLoop_induct E D
    (fun s => (∀ r ∈ chatResults s.trace, continues E r) ∧
      (∀ t ∈ (clockReads s.trace).tail, t < D) ∧ clockReads s.trace ≠ [])
    (fun o s' =>
      (∀ err, o = some (.chatError err) →
        ∃ init, chatResults s'.trace = init ++ [.error err] ∧
          (∀ r ∈ init, continues E r) ∧ ∀ t ∈ (clockReads s'.trace).tail, t < D) ∧
      (o = some .finished →
        ∃ init out, chatResults s'.trace = init ++ [.ok out] ∧
          (parseAction E.lowerTable out).1 = "finish".toList ∧
          (∀ r ∈ init, continues E r) ∧ ∀ t ∈ (clockReads s'.trace).tail, t < D) ∧
      (o = some .timeout →
        (∀ r ∈ chatResults s'.trace, continues E r) ∧
        ∃ tr init t, s'.trace = tr ++ [Event.now t] ∧
          (clockReads s'.trace).tail = init ++ [t] ∧ (∀ t' ∈ init, t' < D) ∧ ¬ t < D) ∧
      (o = none →
        (∀ r ∈ chatResults s'.trace, continues E r) ∧
        ∀ t ∈ (clockReads s'.trace).tail, t < D))
    ?_ ?_ ?_ fuel s ⟨hchat, hclock, hne⟩
  · rintro s s' ⟨h1, h2, h3⟩ hit
    obtain ⟨out, ht, hcont, hcalls, hreads, _, _⟩ := iteration_inr_calls E D s s' hit
    refine ⟨?_, ?_, ?_⟩
    · simp only [chatResults, hcalls, List.map_append, List.map_cons, List.map_nil]
      exact forall_mem_append_singleton _ _ _ h1 hcont
    · rw [hreads, tail_append_singleton _ _ h3]
      exact forall_mem_append_singleton _ _ _ h2 ht
    · rw [hreads]; simp
  · rintro s o s' ⟨h1, h2, h3⟩ hit
    obtain ⟨_, hto | herr | hfin⟩ := iteration_inl_calls E D s s' o hit
    · obtain ⟨ho, ht, _, ⟨tr, htr⟩, hcalls, hreads⟩ := hto
      subst ho
      refine ⟨(by intro err h; cases h), (by intro h; cases h), ?_, (by intro h; cases h)⟩
      intro _
      refine ⟨?_, tr, (clockReads s.trace).tail, E.now s.trace, htr, ?_, h2, ht⟩
      · simp only [chatResults, hcalls]; exact h1
      · rw [hreads, tail_append_singleton _ _ h3]
    · obtain ⟨err, ho, ht, _, hcalls, hreads⟩ := herr
      subst ho
      refine ⟨?_, (by intro h; cases h), (by intro h; cases h), (by intro h; cases h)⟩
      intro err' he
      cases he
      refine ⟨chatResults s.trace, ?_, h1, ?_⟩
      · simp [chatResults, hcalls]
      · rw [hreads, tail_append_singleton _ _ h3]
        exact forall_mem_append_singleton _ _ _ h2 ht
    · obtain ⟨out, ho, ht, _, hf, hcalls, hreads⟩ := hfin
      subst ho
      refine ⟨(by intro err h; cases h), ?_, (by intro h; cases h), (by intro h; cases h)⟩
      intro _
      refine ⟨chatResults s.trace, out, ?_, hf, h1, ?_⟩
      · simp [chatResults, hcalls]
      · rw [hreads, tail_append_singleton _ _ h3]
        exact forall_mem_append_singleton _ _ _ h2 ht
  · rintro s ⟨h1, h2, _⟩
    exact ⟨(by intro err h; cases h), (by intro h; cases h), (by intro h; cases h),
      fun _ => ⟨h1, h2⟩⟩

/-- On a clock that stands still before the deadline, with replies that hold no action,
the loop goes on whatever the fuel. -/
theorem runLoop_frozen (fuel : Nat) :
    ∀ s : LoopState, (runLoop frozenEnv 1 fuel s).1 = none := by
  induction fuel with
  | zero => intro s; rfl
  | succ n ih =>
    intro s
    have hnow : frozenEnv.now s.trace < 1 := show (0 : Int) < 1 by decide
    have hit := iteration_noAction frozenEnv 1 s "hello".toList hnow rfl (by decide)
    simp only [runLoop, hit]
    exact ih _

/-- C2 as stated fails: `Run` does not return for every sequence of clock readings. With
a budget of 1, a clock that always reads 0 and a model that always replies `hello` (no
action block), the deadline check never fails and no `Chat` call fails or finishes: `Run`
has not returned after three iterations, with three `Chat` calls made, and there is no
fuel at which it returns. -/
theorem C2_counterexample_frozen_clock :
    (parseAction id "hello".toList).1 = [] ∧
    Run.deadline frozenEnv 1 = 1 ∧
    (Run frozenEnv "g".toList 1 3).1 = none ∧
    (chatResults (Run frozenEnv "g".toList 1 3).2.trace).length = 3 ∧
    ¬ ∃ fuel, (Run frozenEnv "g".toList 1 fuel).1 ≠ none := by
  refine ⟨by decide, by rfl, by rfl, by rfl, ?_⟩
  rintro ⟨fuel, h⟩
  exact h (runLoop_frozen fuel _)

/-- C2, amended: `Run` returns when the clock eventually passes every bound, and it
returns in exactly three ways, each read off the trace of its calls. With
the model's error: the failing `Chat` call is the last `Chat` call and every earlier one
gave a reply that is not `finish`. With success: the last `Chat` call gave a reply that
parses to `finish` and no earlier one did. With the timeout error: the last call is a
clock reading that is not before the deadline, every earlier reading of the loop was
before it. In each case every earlier `Chat` call succeeded and every earlier deadline
check passed; as long as `Run` has not returned, all its `Chat` calls gave non-`finish`
replies and all deadline checks passed, one of each per iteration. The result does not
depend on the fuel once `Run` has returned. Without the premise on the clock `Run` need
not return. -/
theorem C2_run_returns_three_ways (E : Env) (goal : Str) (maxTime : Int) :
    (∀ fuel : Nat,
      (∀ err, (Run E goal maxTime fuel).1 = some (.chatError err) →
        ∃ init, chatResults (Run E goal maxTime fuel).2.trace = init ++ [.error err] ∧
          (∀ r ∈ init, continues E r) ∧
          ∀ t ∈ (clockReads (Run E goal maxTime fuel).2.trace).tail,
            t < Run.deadline E maxTime) ∧
      ((Run E goal maxTime fuel).1 = some .finished →
        ∃ init out, chatResults (Run E goal maxTime fuel).2.trace = init ++ [.ok out] ∧
          (parseAction E.lowerTable out).1 = "finish".toList ∧
          (∀ r ∈ init, continues E r) ∧
          ∀ t ∈ (clockReads (Run E goal maxTime fuel).2.trace).tail,
            t < Run.deadline E maxTime) ∧
      ((Run E goal maxTime fuel).1 = some .timeout →
        (∀ r ∈ chatResults (Run E goal maxTime fuel).2.trace, continues E r) ∧
        ∃ tr init t, (Run E goal maxTime fuel).2.trace = tr ++ [Event.now t] ∧
          (clockReads (Run E goal maxTime fuel).2.trace).tail = init ++ [t] ∧
          (∀ t' ∈ init, t' < Run.deadline E maxTime) ∧ ¬ t < Run.deadline E maxTime) ∧
      ((Run E goal maxTime fuel).1 = none →
        (∀ r ∈ chatResults (Run E goal maxTime fuel).2.trace, continues E r) ∧
        (∀ t ∈ (clockReads (Run E goal maxTime fuel).2.trace).tail,
          t < Run.deadline E maxTime) ∧
        (chatResults (Run E goal maxTime fuel).2.trace).length = fuel)) ∧
    (∀ fuel k : Nat, (Run E goal maxTime fuel).1 ≠ none →
      Run E goal maxTime (fuel + k) = Run E goal maxTime fuel) ∧
    ((∀ bound : Int, ∃ N : Nat, ∀ tr : List Event, N ≤ tr.length → bound ≤ E.now tr) →
      ∃ fuel, (Run E goal maxTime fuel).1 ≠ none) := by
  refine ⟨?_, ?_, ?_⟩
  · intro fuel
    have h := runLoop_outcome E (Run.deadline E maxTime) fuel (Run.init E goal)
      (by simp [Run.init, chatResults, chatCalls])
      (by simp [Run.init, clockReads])
      (by simp [Run.init, clockReads])
    refine ⟨h.1, h.2.1, h.2.2.1, ?_⟩
    intro hnone
    refine ⟨(h.2.2.2 hnone).1, (h.2.2.2 hnone).2, ?_⟩
    have := runLoop_count E (Run.deadline E maxTime) fuel (Run.init E goal) hnone
    simpa [chatResults, Run, Run.init, chatCalls] using this
  · intro fuel k h
    exact runLoop_stable E _ fuel k _ h
  · intro hclock
    obtain ⟨N, hN⟩ := hclock (Run.deadline E maxTime)
    exact ⟨N + 1, runLoop_returns E _ N hN N (Run.init E goal) (by omega)⟩

/-- A run of C2: on a clock that counts the calls, `Run` returns. -/
theorem C2_witness :
    (∀ bound : Int, ∃ N : Nat, ∀ tr : List Event, N ≤ tr.length →
      bound ≤ (scriptEnv [[]]).now tr) ∧
    ∃ fuel, (Run (scriptEnv [[]]) "g".toList 5 fuel).1 ≠ none :=
  have hclock : ∀ bound : Int, ∃ N : Nat, ∀ tr : List Event, N ≤ tr.length →
      bound ≤ (scriptEnv [[]]).now tr := by
    intro bound
    refine ⟨bound.toNat, ?_⟩
    intro tr h
    simp only [scriptEnv]
    omega
  ⟨hclock, (C2_run_returns_three_ways (scriptEnv [[]]) "g".toList 5).2.2 hclock⟩

theorem getElem?_append_singleton {α : Type} (l : List α) (x c : α) (k : Nat)
    (h : (l ++ [x])[k]? = some c) : l[k]? = some c ∨ (k = l.length ∧ c = x) := by
  by_cases hk : k < l.length
  · left
    rw [List.getElem?_append_left hk] at h
    exact h
  · right
    rw [List.getElem?_append_right (by omega)] at h
    have hk' : k - l.length = 0 := by
      by_contra hne
      have : 1 ≤ k - l.length := by omega
      rw [List.getElem?_eq_none (by simpa using this)] at h
      cases h
    rw [hk'] at h
    simp at h
    exact ⟨by omega, h.symm⟩

/-- The invariant of the loop for the conversation history, `m0` being the seeded
history. -/
theorem history_step (m0 : List Message) (s : LoopState)
    (c : List Message × Except Str Str)
    (hchain : List.Chain' extendsBy (chatCalls s.trace))
    (hlast : ∀ a ∈ (chatCalls s.trace).getLast?, ∃ out u, a.2 = .ok out ∧
      s.msgs = a.1 ++ [⟨"assistant".toList, out⟩, ⟨"user".toList, u⟩])
    (hhead : ∀ a ∈ (chatCalls s.trace).head?, a.1 = m0)
    (hnil : chatCalls s.trace = [] → s.msgs = m0)
    (hkth : ∀ k a, (chatCalls s.trace)[k]? = some a → a.1.length = m0.length + 2 * k)
    (hlen : s.msgs.length = m0.length + 2 * (chatCalls s.trace).length)
    (hc : c.1 = s.msgs) :
    List.Chain' extendsBy (chatCalls s.trace ++ [c]) ∧
    (∀ a ∈ (chatCalls s.trace ++ [c]).head?, a.1 = m0) ∧
    (∀ k a, (chatCalls s.trace ++ [c])[k]? = some a → a.1.length = m0.length + 2 * k) := by
  refine ⟨?_, ?_, ?_⟩
  · refine List.Chain'.append hchain (List.chain'_singleton c) ?_
    intro a ha b hb
    simp only [List.head?_cons, Option.mem_def, Option.some.injEq] at hb
    subst hb
    obtain ⟨out, u, h1, h2⟩ := hlast a ha
    exact ⟨out, u, h1, by rw [hc, h2]⟩
  · intro a ha
    cases hl : chatCalls s.trace with
    | nil =>
      rw [hl] at ha
      simp only [List.nil_append, List.head?_cons, Option.mem_def, Option.some.injEq] at ha
      rw [← ha, hc]; exact hnil hl
    | cons x l =>
      rw [hl] at ha hhead
      exact hhead a (by simpa using ha)
  · intro k a ha
    rcases getElem?_append_singleton _ _ _ _ ha with h | ⟨hk, rfl⟩
    · exact hkth k a h
    · rw [hc, hlen, hk]

theorem history_invariant (E : Env) (D : Int) (m0 : List Message) (fuel : Nat)
    (s : LoopState) (hs : s.msgs = m0) (htr : chatCalls s.trace = []) :
    List.Chain' extendsBy (chatCalls (runLoop E D fuel s).2.trace) ∧
    (∀ a ∈ (chatCalls (runLoop E D fuel s).2.trace).head?, a.1 = m0) ∧
    (∀ k a, (chatCalls (runLoop E D fuel s).2.trace)[k]? = some a →
      a.1.length = m0.length + 2 * k) ∧
    m0 <+: (runLoop E D fuel s).2.msgs ∧
    ((runLoop E D fuel s).1 = none →
      (runLoop E D fuel s).2.msgs.length =
        m0.length + 2 * (chatCalls (runLoop E D fuel s).2.trace).length) := by
  refine runLoop_induct E D
    (fun s => List.Chain' extendsBy (chatCalls s.trace) ∧
      (∀ a ∈ (chatCalls s.trace).getLast?, ∃ out u, a.2 = .ok out ∧
        s.msgs = a.1 ++ [⟨"assistant".toList, out⟩, ⟨"user".toList, u⟩]) ∧
      (∀ a ∈ (chatCalls s.trace).head?, a.1 = m0) ∧
      (chatCalls s.trace = [] → s.msgs = m0) ∧
      (∀ k a, (chatCalls s.trace)[k]? = some a → a.1.length = m0.length + 2 * k) ∧
      s.msgs.length = m0.length + 2 * (chatCalls s.trace).length ∧
      m0 <+: s.msgs)
    (fun o s' => List.Chain' extendsBy (chatCalls s'.trace) ∧
      (∀ a ∈ (chatCalls s'.trace).head?, a.1 = m0) ∧
      (∀ k a, (chatCalls s'.trace)[k]? = some a → a.1.length = m0.length + 2 * k) ∧
      m0 <+: s'.msgs ∧
      (o = none → s'.msgs.length = m0.length + 2 * (chatCalls s'.trace).length))
    ?_ ?_ ?_ fuel s ?_
  · rintro s s' ⟨hchain, hlast, hhead, hnil, hkth, hlen, hpre⟩ hit
    obtain ⟨out, _, _, hcalls, _, _, u, hmsgs⟩ := iteration_inr_calls E D s s' hit
    obtain ⟨g1, g2, g3⟩ := history_step m0 s (s.msgs, .ok out) hchain hlast hhead hnil
      hkth hlen rfl
    rw [hcalls]
    refine ⟨g1, ?_, g2, by simp, g3, ?_, ?_⟩
    · intro a ha
      rw [List.getLast?_concat] at ha
      simp only [Option.mem_def, Option.some.injEq] at ha
      subst ha
      exact ⟨out, u, rfl, hmsgs⟩
    · rw [hmsgs]; simp [hlen]; omega
    · rw [hmsgs]; exact hpre.trans (List.prefix_append _ _)
  · rintro s o s' ⟨hchain, hlast, hhead, hnil, hkth, hlen, hpre⟩ hit
    obtain ⟨hm, hto | herr | hfin⟩ := iteration_inl_calls E D s s' o hit
    · obtain ⟨ho, _, _, _, hcalls, _⟩ := hto
      rw [hcalls, hm, ho]
      exact ⟨hchain, hhead, hkth, hpre, by intro h; cases h⟩
    · obtain ⟨err, ho, _, _, hcalls, _⟩ := herr
      obtain ⟨g1, g2, g3⟩ := history_step m0 s (s.msgs, .error err) hchain hlast hhead
        hnil hkth hlen rfl
      rw [hcalls, hm, ho]
      exact ⟨g1, g2, g3, hpre, by intro h; cases h⟩
    · obtain ⟨out, ho, _, _, _, hcalls, _⟩ := hfin
      obtain ⟨g1, g2, g3⟩ := history_step m0 s (s.msgs, .ok out) hchain hlast hhead
        hnil hkth hlen rfl
      rw [hcalls, hm, ho]
      exact ⟨g1, g2, g3, hpre, by intro h; cases h⟩
  · rintro s ⟨hchain, _, hhead, _, hkth, hlen, hpre⟩
    exact ⟨hchain, hhead, hkth, hpre, fun _ => hlen⟩
  · simp only [htr, hs]
    simp

theorem runLoop_inr (E : Env) (D : Int) (fuel : Nat) (s s' : LoopState)
    (h : iteration E D s = .inr s') : runLoop E D (fuel + 1) s = runLoop E D fuel s' := by
  simp [runLoop, h]

theorem runLoop_succ_end (E : Env) (D : Int) :
    ∀ (fuel : Nat) (s : LoopState),
      runLoop E D (fuel + 1) s =
        match runLoop E D fuel s with
        | (some o, s') => (some o, s')
        | (none, s') =>
          match iteration E D s' with
          | .inl (o, s2) => (some o, s2)
          | .inr s2 => (none, s2) := by
  intro fuel
  induction fuel with
  | zero =>
    intro s
    cases hit : iteration E D s with
    | inl r => obtain ⟨o, s'⟩ := r; simp [runLoop, hit]
    | inr s' => simp [runLoop, hit]
  | succ n ih =>
    intro s
    cases hit : iteration E D s with
    | inl r => obtain ⟨o, s'⟩ := r; simp [runLoop, hit]
    | inr s' =>
      rw [runLoop_inr E D (n + 1) s s' hit, runLoop_inr E D n s s' hit]
      exact ih s'

theorem history_grows (E : Env) (D : Int) (fuel : Nat) (s : LoopState) :
    (runLoop E D fuel s).2.msgs <+: (runLoop E D (fuel + 1) s).2.msgs := by
  rw [runLoop_succ_end]
  rcases hr : runLoop E D fuel s with ⟨o, s'⟩
  cases o with
  | some o => exact List.prefix_refl _
  | none =>
    cases hit : iteration E D s' with
    | inl r =>
      obtain ⟨o, s2⟩ := r
      simp only [hit]
      rw [(iteration_inl_calls E D s' s2 o hit).1]
    | inr s2 =>
      obtain ⟨out, _, _, _, _, _, u, hmsgs⟩ := iteration_inr_calls E D s' s2 hit
      simp only [hit]
      rw [hmsgs]
      exact List.prefix_append _ _

/-- C8: the histories given to successive `Chat` calls of a run form a chain in which
each history is the previous one followed by an `assistant` message with the previous
reply and one `user` message; the first call gets the seeded history of two messages,
the call number `k` (from 0) a history of `2 + 2 * k` messages; after `fuel` iterations
that did not end the run the history has `2 + 2 * fuel` messages; the history of a
longer run extends that of a shorter one, and all extend the seeded history. -/
theorem C8_history_append_only (E : Env) (goal : Str) (maxTime : Int) (fuel : Nat) :
    List.Chain' extendsBy (chatCalls (Run E goal maxTime fuel).2.trace) ∧
    (∀ a ∈ (chatCalls (Run E goal maxTime fuel).2.trace).head?,
      a.1 = (Run.init E goal).msgs) ∧
    (Run.init E goal).msgs.length = 2 ∧
    (∀ k a, (chatCalls (Run E goal maxTime fuel).2.trace)[k]? = some a →
      a.1.length = 2 + 2 * k) ∧
    ((Run E goal maxTime fuel).1 = none →
      (Run E goal maxTime fuel).2.msgs.length = 2 + 2 * fuel) ∧
    (Run.init E goal).msgs <+: (Run E goal maxTime fuel).2.msgs ∧
    (Run E goal maxTime fuel).2.msgs <+: (Run E goal maxTime (fuel + 1)).2.msgs := by
  have h := history_invariant E (Run.deadline E maxTime) (Run.init E goal).msgs fuel
    (Run.init E goal) rfl (by simp [Run.init, chatCalls])
  have h2 : (Run.init E goal).msgs.length = 2 := rfl
  rw [h2] at h
  refine ⟨h.1, h.2.1, h2, h.2.2.1, ?_, h.2.2.2.1, history_grows E _ fuel _⟩
  intro hnone
  have hc := runLoop_count E (Run.deadline E maxTime) fuel (Run.init E goal) hnone
  have := h.2.2.2.2 hnone
  simp only [Run] at hc ⊢
  rw [this, hc]
  simp [Run.init, chatCalls]

theorem stampLabels_append (a b : List Event) :
    ∀ acc, stampLabels acc (a ++ b) =
      stampLabels acc a ++ stampLabels (acc ++ chatCalls a) b := by
  induction a with
  | nil => intro acc; simp [stampLabels, chatCalls]
  | cons e a ih =>
    intro acc
    cases e <;> simp [stampLabels, chatCalls, ih]

theorem stampLabels_tool (mid : List Event) (h : ∀ e ∈ mid, e.isToolCall = true) :
    ∀ acc, stampLabels acc mid = [] := by
  induction mid with
  | nil => intro acc; rfl
  | cons e mid ih =>
    intro acc
    have he := h e (List.mem_cons_self _ _)
    have := ih (fun e' he' => h e' (List.mem_cons_of_mem _ he'))
    cases e <;> simp_all [stampLabels, Event.isToolCall]

theorem stampLabels_mem (pre post : List Event) (l : Str) :
    (chatCalls pre, l) ∈ stampLabels [] (pre ++ Event.saveArtifacts l :: post) := by
  rw [stampLabels_append]
  simp [stampLabels]

/-- The invariant of the loop for the step counter and the artifact labels. -/
theorem labels_invariant (E : Env) (D : Int) (fuel : Nat) (s : LoopState)
    (hstep : s.step = (chatCalls s.trace).length)
    (hlab : stampLabels [] s.trace = []) :
    (runLoop E D fuel s).2.step = (chatCalls (runLoop E D fuel s).2.trace).length ∧
    ∀ p ∈ stampLabels [] (runLoop E D fuel s).2.trace,
      ∃ msgs out, p.1.getLast? = some (msgs, .ok out) ∧
        (parseAction E.lowerTable out).1 ≠ [] ∧
        (parseAction E.lowerTable out).1 ≠ "finish".toList ∧
        p.2 = artifactLabel p.1.length (parseAction E.lowerTable out).1 := by
  refine runLoop_induct E D
    (fun s => s.step = (chatCalls s.trace).length ∧
      ∀ p ∈ stampLabels [] s.trace,
        ∃ msgs out, p.1.getLast? = some (msgs, .ok out) ∧
          (parseAction E.lowerTable out).1 ≠ [] ∧
          (parseAction E.lowerTable out).1 ≠ "finish".toList ∧
          p.2 = artifactLabel p.1.length (parseAction E.lowerTable out).1)
    (fun _ s' => s'.step = (chatCalls s'.trace).length ∧
      ∀ p ∈ stampLabels [] s'.trace,
        ∃ msgs out, p.1.getLast? = some (msgs, .ok out) ∧
          (parseAction E.lowerTable out).1 ≠ [] ∧
          (parseAction E.lowerTable out).1 ≠ "finish".toList ∧
          p.2 = artifactLabel p.1.length (parseAction E.lowerTable out).1)
    ?_ ?_ ?_ fuel s ?_
  · rintro s s' ⟨h1, h2⟩ hit
    obtain ⟨out', _, _, hcalls, _, hst, _⟩ := iteration_inr_calls E D s s' hit
    obtain ⟨out, rest, _, _, hf, htr, hrest, _, _⟩ := iteration_inr_spec E D s s' hit
    refine ⟨by rw [hst, hcalls, h1]; simp, ?_⟩
    rw [htr]
    rcases hrest with ⟨_, rfl⟩ | ⟨ha, mid, hmid, rfl⟩
    · intro p hp
      simp only [stampLabels_append, stampLabels, List.append_nil, List.mem_append,
        List.not_mem_nil, or_false] at hp
      exact h2 p hp
    · intro p hp
      simp only [stampLabels_append, stampLabels, chatCalls, List.append_nil, List.nil_append,
        stampLabels_tool mid hmid, chatCalls_tool mid hmid, List.mem_append,
        List.mem_singleton, List.not_mem_nil, or_false, false_or] at hp
      rcases hp with hp | rfl
      · exact h2 p hp
      · refine ⟨s.msgs, out, by simp [chatCalls_append, chatCalls], ha, hf, ?_⟩
        simp [chatCalls_append, chatCalls, h1]
  · rintro s o s' ⟨h1, h2⟩ hit
    obtain ⟨_, hto | herr | hfin⟩ := iteration_inl_spec E D s s' o hit
    · obtain ⟨_, _, hst, htr⟩ := hto
      rw [htr, hst]
      refine ⟨by simp [chatCalls_append, chatCalls, h1], ?_⟩
      intro p hp
      simp only [stampLabels_append, stampLabels, List.append_nil] at hp
      exact h2 p hp
    · obtain ⟨err, _, _, hst, htr⟩ := herr
      rw [htr, hst]
      refine ⟨by simp [chatCalls_append, chatCalls, h1], ?_⟩
      intro p hp
      simp only [stampLabels_append, stampLabels, List.append_nil] at hp
      exact h2 p hp
    · obtain ⟨out, _, _, hst, _, htr⟩ := hfin
      rw [htr, hst]
      refine ⟨by simp [chatCalls_append, chatCalls, h1], ?_⟩
      intro p hp
      simp only [stampLabels_append, stampLabels, List.append_nil] at hp
      exact h2 p hp
  · rintro s h
    exact h
  · refine ⟨hstep, ?_⟩
    rw [hlab]
    intro p hp
    cases hp

/-- C10 as stated fails: the step counter advances in every model turn. When the first
reply has no action block and the second is a fenced `observe`, the first dispatched
action is saved under step number 2. -/
theorem C10_counterexample_step_counts_turns :
    (parseAction id "hello".toList).1 = [] ∧
    (parseAction id (fenced "observe \x7b\x7d".toList)).1 = "observe".toList ∧
    savedLabels (Run (scriptEnv ["hello".toList, fenced "observe \x7b\x7d".toList])
      "g".toList 1000 2).2.trace = ["step02_observe".toList] ∧
    "step02_observe".toList ≠ artifactLabel 1 "observe".toList := by
  refine ⟨by decide, by decide, by rfl, by decide⟩

/-- C10, amended: the step counter is the number of model turns (`Chat` calls) made so
far, whether or not they held an action; the label of every saved artifact is
`step%02d_%s` of the number of `Chat` calls made before the save and of the action name
parsed from the latest reply, a name that is neither empty nor `finish`. -/
theorem C10_step_counts_model_turns (E : Env) (goal : Str) (maxTime : Int) (fuel : Nat) :
    (Run E goal maxTime fuel).2.step = (chatCalls (Run E goal maxTime fuel).2.trace).length ∧
    ∀ pre l post, (Run E goal maxTime fuel).2.trace = pre ++ Event.saveArtifacts l :: post →
      ∃ msgs out, (chatCalls pre).getLast? = some (msgs, .ok out) ∧
        (parseAction E.lowerTable out).1 ≠ [] ∧
        (parseAction E.lowerTable out).1 ≠ "finish".toList ∧
        l = artifactLabel (chatCalls pre).length (parseAction E.lowerTable out).1 := by
  have h := labels_invariant E (Run.deadline E maxTime) fuel (Run.init E goal)
    (by simp [Run.init, chatCalls]) (by simp [Run.init, stampLabels])
  refine ⟨h.1, ?_⟩
  intro pre l post htr
  have hmem := stampLabels_mem pre post l
  rw [← htr] at hmem
  exact h.2 _ hmem

/-- A run of the amended C10: the artifact of the second model turn. -/
theorem C10_witness :
    ∃ msgs out,
      (chatCalls [Event.observe "page".toList, Event.now 1, Event.now 2,
        Event.chat sys (Run.init (scriptEnv ["hello".toList, fenced "observe \x7b\x7d".toList])
          "g".toList).msgs (.ok "hello".toList), Event.now 4,
        Event.chat sys ((Run.init (scriptEnv ["hello".toList, fenced "observe \x7b\x7d".toList])
          "g".toList).msgs ++ [⟨"assistant".toList, "hello".toList⟩,
            ⟨"user".toList, repairPrompt⟩]) (.ok (fenced "observe \x7b\x7d".toList)),
        Event.observe "page".toList]).getLast? = some (msgs, .ok out) ∧
      (parseAction id out).1 ≠ [] ∧ (parseAction id out).1 ≠ "finish".toList ∧
      "step02_observe".toList = artifactLabel
        (chatCalls [Event.observe "page".toList, Event.now 1, Event.now 2,
        Event.chat sys (Run.init (scriptEnv ["hello".toList, fenced "observe \x7b\x7d".toList])
          "g".toList).msgs (.ok "hello".toList), Event.now 4,
        Event.chat sys ((Run.init (scriptEnv ["hello".toList, fenced "observe \x7b\x7d".toList])
          "g".toList).msgs ++ [⟨"assistant".toList, "hello".toList⟩,
            ⟨"user".toList, repairPrompt⟩]) (.ok (fenced "observe \x7b\x7d".toList)),
        Event.observe "page".toList]).length (parseAction id out).1 :=
  (C10_step_counts_model_turns (scriptEnv ["hello".toList, fenced "observe \x7b\x7d".toList])
    "g".toList 1000 2).2 _ "step02_observe".toList [] (by rfl)

/-- A run of C8: one turn without an action leaves a history of four messages. -/
theorem C8_witness :
    (Run (scriptEnv ["hello".toList]) "g".toList 1000 1).1 = none ∧
    (Run (scriptEnv ["hello".toList]) "g".toList 1000 1).2.msgs.length = 2 + 2 * 1 :=
  ⟨by rfl, (C8_history_append_only (scriptEnv ["hello".toList]) "g".toList 1000 1).2.2.2.2.1
    (by rfl)⟩

end Agent
